import Mathlib

/-
Verification development for the syntax-tree construction and manipulation
toolkit (NodeUtils.ts and NodeFactory.ts of the javascript-obfuscator core).

The JavaScript object graph is shallowly embedded as the inductive type JVal
below.  A tree value owns its structured children (objects and arrays), which
matches the single-owner hierarchy of the data model: every node is owned by
exactly one parent, and the parent back-reference is a non-owning weak link.
Object identity (the heap address of an object or array) is modelled by an
explicit id field on every structured constructor; a back-reference such as
the parentNode link is modelled by the vref constructor holding the id of the
referenced object, which is exactly how the reference cycle created by parent
links is broken in the embedding.  Regular-expression values carry their own
id as well, because the cloner copies them by reference (shared identity).
-/

inductive JVal where
  | vnull
  | vundef
  | vbool (b : Bool)
  | vnum (n : Int)
  | vstr (s : String)
  | vregexp (id : Nat) (src : String)
  | vref (a : Nat)
  | varr (id : Nat) (elems : List JVal)
  | vobj (id : Nat) (fields : List (String × JVal))
deriving Repr

open JVal

/-- Reads the first binding of a key in an object's field list, mirroring a
JavaScript property read on objects whose keys are unique. -/
def lookupField : List (String × JVal) → String → Option JVal
  | [], _ => none
  | (k, v) :: rest, key => if k = key then some v else lookupField rest key

/-- Writes a property: replaces the first binding of the key when present and
appends a new binding at the end otherwise, mirroring JavaScript property
assignment and its insertion-order semantics for string keys. -/
def setField : List (String × JVal) → String → JVal → List (String × JVal)
  | [], key, w => [(key, w)]
  | (k, v) :: rest, key, w =>
      if k = key then (key, w) :: rest else (k, v) :: setField rest key w

/-- Property read on a value: an object delegates to its field list and every
other value has no own properties we need. -/
def getProp (v : JVal) (key : String) : Option JVal :=
  match v with
  | vobj _ fs => lookupField fs key
  | _ => none

/-- Bookkeeping keys attached by this toolkit after a node is built.  They are
never visitor keys of the external tree-walking engine, so no traversal ever
descends through them; the walkers and the checkers below skip them alike. -/
def isReserved (k : String) : Bool :=
  k = "parentNode" || k = "metadata" || k = "x-verbatim-property"

/-- Root id of a structured value, used to state that a cloned root's parent
link references the clone's own root. -/
def rootId : JVal → Option Nat
  | vobj i _ => some i
  | varr i _ => some i
  | vregexp i _ => some i
  | _ => none

mutual
/-- Size measure for termination of the tree walkers.  A binding under a
bookkeeping key weighs one unit regardless of its value, and an object's
header weighs four units, so attaching parent links, verbatim annotations and
metadata (at most three bookkeeping bindings) keeps the measure of the
mutated field list below the measure of the object it came from. -/
def msize : JVal → Nat
  | vobj _ fs => 4 + msizeFields fs
  | varr _ es => 1 + msizeElems es
  | _ => 0

def msizeFields : List (String × JVal) → Nat
  | [] => 0
  | (k, v) :: rest =>
      if isReserved k then 1 + msizeFields rest else 1 + msize v + msizeFields rest

def msizeElems : List JVal → Nat
  | [] => 0
  | v :: rest => 1 + msize v + msizeElems rest
end

namespace NodeGuards

/-- Modelled from the spec: NodeGuards (a repository file not under src/)
offers discriminant checks on the kind tag; a literal node is an object whose
type tag is the Literal kind. -/
def isLiteralNode (n : JVal) : Bool :=
  match getProp n "type" with
  | some (vstr t) => t = "Literal"
  | _ => false

/-- Modelled from the spec: discriminant check for unary-expression nodes. -/
def isUnaryExpressionNode (n : JVal) : Bool :=
  match getProp n "type" with
  | some (vstr t) => t = "UnaryExpression"
  | _ => false

end NodeGuards

/-- Recognizes a syntax node in the sense of the external tree-walking engine:
an object tagged with a kind discriminant.  Modelled from the spec: walkers
enumerate the nodes beneath a root and supply each node's direct parent, so
only tagged objects (directly in a field or as an array element) are visited. -/
def isNodeObj (v : JVal) : Bool :=
  match v with
  | vobj _ fs =>
      (match lookupField fs "type" with
       | some (vstr _) => true
       | _ => false)
  | _ => false

namespace NodeMetadata

/-- Metadata record { ignoredNode: false } attached to every processed node. -/
def cleanMetadata : JVal :=
  vobj 0 [("ignoredNode", vbool false)]

/-- Modelled from the spec: the Node Metadata Store sets a node's metadata to
the fixed record { ignoredNode: false } (NodeMetadata is repository code that
is not under src/). -/
def set (n : JVal) : JVal :=
  match n with
  | vobj i fs => vobj i (setField fs "metadata" cleanMetadata)
  | v => v

end NodeMetadata

/-- Modelled from escodegen's exported Precedence table (an external
collaborator): Precedence.Primary is the fixed highest precedence level.  The
claims depend only on every verbatim annotation carrying this one fixed
primary precedence. -/
def escodegenPrecedencePrimary : Int := 21

namespace NodeFactory

/-- Value payload of a Literal node: the TypeScript signature admits boolean,
number and string literal values. -/
inductive LitValue where
  | boolVal (b : Bool)
  | numVal (n : Int)
  | strVal (s : String)

/-- JavaScript string coercion of a literal value, as produced by template
interpolation; integers render in decimal like JavaScript number-to-string on
integral values. -/
def LitValue.render : LitValue → String
  | LitValue.boolVal true => "true"
  | LitValue.boolVal false => "false"
  | LitValue.numVal n => toString n
  | LitValue.strVal s => s

/-- Literal value embedded as a tree value. -/
def LitValue.toJVal : LitValue → JVal
  | LitValue.boolVal b => vbool b
  | LitValue.numVal n => vnum n
  | LitValue.strVal s => vstr s

/-
Factory constructors.  Each mirrors one constructor of NodeFactory.ts field
for field and in source order.  A TypeScript optional or defaulted parameter
is modelled as an Option argument: passing none models calling the
constructor without that argument (the JavaScript default applies exactly
when the argument is undefined).  Kind tags are the NodeType enum members,
each of which is its ESTree tag string.  Freshly constructed objects get id 0:
object identity is irrelevant to the factory claims.
-/

def programNode (body : Option (List JVal)) : JVal :=
  vobj 0 [("type", vstr "Program"),
          ("body", varr 0 (body.getD [])),
          ("sourceType", vstr "script"),
          ("metadata", NodeMetadata.cleanMetadata)]

def arrayExpressionNode (elements : Option (List JVal)) : JVal :=
  vobj 0 [("type", vstr "ArrayExpression"),
          ("elements", varr 0 (elements.getD [])),
          ("metadata", NodeMetadata.cleanMetadata)]

def assignmentExpressionNode (operator : String) (left : JVal) (right : JVal) : JVal :=
  vobj 0 [("type", vstr "AssignmentExpression"),
          ("operator", vstr operator),
          ("left", left),
          ("right", right),
          ("metadata", NodeMetadata.cleanMetadata)]

def binaryExpressionNode (operator : String) (left : JVal) (right : JVal) : JVal :=
  vobj 0 [("type", vstr "BinaryExpression"),
          ("operator", vstr operator),
          ("left", left),
          ("right", right),
          ("metadata", NodeMetadata.cleanMetadata)]

def blockStatementNode (body : Option (List JVal)) : JVal :=
  vobj 0 [("type", vstr "BlockStatement"),
          ("body", varr 0 (body.getD [])),
          ("metadata", NodeMetadata.cleanMetadata)]

def breakStatement (label : Option JVal) : JVal :=
  vobj 0 [("type", vstr "BreakStatement"),
          ("label", label.getD vundef),
          ("metadata", NodeMetadata.cleanMetadata)]

def callExpressionNode (callee : JVal) (args : Option (List JVal)) : JVal :=
  vobj 0 [("type", vstr "CallExpression"),
          ("callee", callee),
          ("arguments", varr 0 (args.getD [])),
          ("metadata", NodeMetadata.cleanMetadata)]

def continueStatement (label : Option JVal) : JVal :=
  vobj 0 [("type", vstr "ContinueStatement"),
          ("label", label.getD vundef),
          ("metadata", NodeMetadata.cleanMetadata)]

def expressionStatementNode (expression : JVal) : JVal :=
  vobj 0 [("type", vstr "ExpressionStatement"),
          ("expression", expression),
          ("metadata", NodeMetadata.cleanMetadata)]

def identifierNode (name : String) : JVal :=
  vobj 0 [("type", vstr "Identifier"),
          ("name", vstr name),
          ("metadata", NodeMetadata.cleanMetadata)]

def functionDeclarationNode (functionName : String) (params : List JVal) (body : JVal) : JVal :=
  vobj 0 [("type", vstr "FunctionDeclaration"),
          ("id", identifierNode functionName),
          ("params", varr 0 params),
          ("body", body),
          ("generator", vbool false),
          ("metadata", NodeMetadata.cleanMetadata)]

def functionExpressionNode (params : List JVal) (body : JVal) : JVal :=
  vobj 0 [("type", vstr "FunctionExpression"),
          ("params", varr 0 params),
          ("body", body),
          ("generator", vbool false),
          ("metadata", NodeMetadata.cleanMetadata)]

/-- If-statement constructor: the spread of a conditional in the source means
the alternate field is present exactly when an alternate branch is supplied. -/
def ifStatementNode (test : JVal) (consequent : JVal) (alternate : Option JVal) : JVal :=
  vobj 0 ([("type", vstr "IfStatement"),
           ("test", test),
           ("consequent", consequent)]
          ++ (match alternate with
              | some alt => [("alternate", alt)]
              | none => [])
          ++ [("metadata", NodeMetadata.cleanMetadata)])

def literalNode (value : LitValue) (raw : Option String) : JVal :=
  let rawText := match raw with
    | some r => r
    | none => "'" ++ value.render ++ "'"
  vobj 0 [("type", vstr "Literal"),
          ("value", value.toJVal),
          ("raw", vstr rawText),
          ("x-verbatim-property",
            vobj 0 [("content", vstr rawText),
                    ("precedence", vnum escodegenPrecedencePrimary)]),
          ("metadata", NodeMetadata.cleanMetadata)]

def logicalExpressionNode (operator : String) (left : JVal) (right : JVal) : JVal :=
  vobj 0 [("type", vstr "LogicalExpression"),
          ("operator", vstr operator),
          ("left", left),
          ("right", right),
          ("metadata", NodeMetadata.cleanMetadata)]

def memberExpressionNode (object : JVal) (property : JVal) (computed : Option Bool) : JVal :=
  vobj 0 [("type", vstr "MemberExpression"),
          ("computed", vbool (computed.getD false)),
          ("object", object),
          ("property", property),
          ("metadata", NodeMetadata.cleanMetadata)]

def methodDefinitionNode (key : JVal) (value : JVal) (kind : String) (computed : Bool) : JVal :=
  vobj 0 [("type", vstr "MethodDefinition"),
          ("key", key),
          ("value", value),
          ("kind", vstr kind),
          ("computed", vbool computed),
          ("static", vbool false),
          ("metadata", NodeMetadata.cleanMetadata)]

def objectExpressionNode (properties : List JVal) : JVal :=
  vobj 0 [("type", vstr "ObjectExpression"),
          ("properties", varr 0 properties),
          ("metadata", NodeMetadata.cleanMetadata)]

def propertyNode (key : JVal) (value : JVal) (computed : Option Bool) : JVal :=
  vobj 0 [("type", vstr "Property"),
          ("key", key),
          ("value", value),
          ("kind", vstr "init"),
          ("method", vbool false),
          ("shorthand", vbool false),
          ("computed", vbool (computed.getD false)),
          ("metadata", NodeMetadata.cleanMetadata)]

def returnStatementNode (argument : JVal) : JVal :=
  vobj 0 [("type", vstr "ReturnStatement"),
          ("argument", argument),
          ("metadata", NodeMetadata.cleanMetadata)]

def switchStatementNode (discriminant : JVal) (cases : List JVal) : JVal :=
  vobj 0 [("type", vstr "SwitchStatement"),
          ("discriminant", discriminant),
          ("cases", varr 0 cases),
          ("metadata", NodeMetadata.cleanMetadata)]

def switchCaseNode (test : JVal) (consequent : List JVal) : JVal :=
  vobj 0 [("type", vstr "SwitchCase"),
          ("test", test),
          ("consequent", varr 0 consequent),
          ("metadata", NodeMetadata.cleanMetadata)]

def unaryExpressionNode (operator : String) (argument : JVal) (prefixFlag : Option Bool) : JVal :=
  vobj 0 [("type", vstr "UnaryExpression"),
          ("operator", vstr operator),
          ("argument", argument),
          ("prefix", vbool (prefixFlag.getD true)),
          ("metadata", NodeMetadata.cleanMetadata)]

def updateExpressionNode (operator : String) (argumentExpr : JVal) : JVal :=
  vobj 0 [("type", vstr "UpdateExpression"),
          ("operator", vstr operator),
          ("argument", argumentExpr),
          ("prefix", vbool false),
          ("metadata", NodeMetadata.cleanMetadata)]

def variableDeclarationNode (declarations : Option (List JVal)) (kind : Option String) : JVal :=
  vobj 0 [("type", vstr "VariableDeclaration"),
          ("declarations", varr 0 (declarations.getD [])),
          ("kind", vstr (kind.getD "var")),
          ("metadata", NodeMetadata.cleanMetadata)]

def variableDeclaratorNode (id : JVal) (init : JVal) : JVal :=
  vobj 0 [("type", vstr "VariableDeclarator"),
          ("id", id),
          ("init", init),
          ("metadata", NodeMetadata.cleanMetadata)]

def whileStatementNode (test : JVal) (body : JVal) : JVal :=
  vobj 0 [("type", vstr "WhileStatement"),
          ("test", test),
          ("body", body),
          ("metadata", NodeMetadata.cleanMetadata)]

end NodeFactory


/-! Measure lemmas driving termination of the tree walkers. -/

theorem msizeFields_cons_reserved (k : String) (v : JVal) (rest : List (String × JVal))
    (hr : isReserved k = true) :
    msizeFields ((k, v) :: rest) = 1 + msizeFields rest := by
  simp [msizeFields, hr]

theorem msizeFields_cons_other (k : String) (v : JVal) (rest : List (String × JVal))
    (hr : isReserved k = false) :
    msizeFields ((k, v) :: rest) = 1 + msize v + msizeFields rest := by
  simp [msizeFields, hr]

theorem msizeFields_setField_reserved_le (fs : List (String × JVal)) (k : String)
    (w : JVal) (hk : isReserved k = true) :
    msizeFields (setField fs k w) ≤ msizeFields fs + 1 := by
  induction fs with
  | nil => simp [setField, msizeFields, hk]
  | cons p rest ih =>
      obtain ⟨k', v⟩ := p
      by_cases h : k' = k
      · subst h
        simp [setField, msizeFields, hk]
      · simp only [setField, if_neg h]
        by_cases hr : isReserved k'
        · rw [msizeFields_cons_reserved k' v _ hr, msizeFields_cons_reserved k' v _ hr]
          omega
        · simp only [Bool.not_eq_true] at hr
          rw [msizeFields_cons_other k' v _ hr, msizeFields_cons_other k' v _ hr]
          omega

theorem msizeFields_tail_lt (k : String) (v : JVal) (rest : List (String × JVal)) :
    msizeFields rest < msizeFields ((k, v) :: rest) := by
  by_cases hr : isReserved k
  · rw [msizeFields_cons_reserved k v rest hr]
    omega
  · simp only [Bool.not_eq_true] at hr
    rw [msizeFields_cons_other k v rest hr]
    omega

theorem msize_head_lt (k : String) (v : JVal) (rest : List (String × JVal))
    (hk : isReserved k = false) : msize v < msizeFields ((k, v) :: rest) := by
  rw [msizeFields_cons_other k v rest hk]
  omega

theorem msize_lookupField_lt (fs : List (String × JVal)) (key : String) (v : JVal)
    (hk : isReserved key = false) (h : lookupField fs key = some v) :
    msize v < msizeFields fs + 1 := by
  induction fs with
  | nil => simp [lookupField] at h
  | cons p rest ih =>
      obtain ⟨k', w⟩ := p
      by_cases he : k' = key
      · subst he
        have h' : lookupField ((k', w) :: rest) k' = some w := by simp [lookupField]
        rw [h'] at h
        injection h with hwv
        subst hwv
        have hc := msize_head_lt k' w rest hk
        omega
      · simp only [lookupField, if_neg he] at h
        have h1 := ih h
        have h2 := msizeFields_tail_lt k' w rest
        omega

/-! The Parent Linker.  parentizeAst walks a tree with the external
tree-walking engine, entering every node with parentizeNode.  The engine is
modelled from the spec: it visits, beneath every object, each field value
(and each array element) that is itself a kind-tagged syntax node, supplying
the direct parent (none at the root); bookkeeping keys are not visitor keys
and are never descended.  parentizeNode assigns the visited node's parentNode
to the supplied parent, or to the node itself at the root. -/

def NodeUtils.parentizeNode (n : JVal) (parentId : Option Nat) : JVal :=
  match n with
  | vobj i fs => vobj i (setField fs "parentNode" (vref (parentId.getD i)))
  | v => v

mutual
def parentizeFields : List (String × JVal) → Nat → List (String × JVal)
  | [], _ => []
  | (k, v) :: rest, p =>
      (k, if _hk : isReserved k then v else parentizeChild v p) :: parentizeFields rest p
termination_by fs _ => msizeFields fs
decreasing_by
  · exact msize_head_lt k v rest (by simpa using _hk)
  · exact msizeFields_tail_lt k v rest

def parentizeChild : JVal → Nat → JVal
  | vobj i fs, p =>
      if isNodeObj (vobj i fs) then
        vobj i (parentizeFields (setField fs "parentNode" (vref p)) i)
      else vobj i fs
  | varr i es, p => varr i (parentizeElems es p)
  | v, _ => v
termination_by v _ => msize v
decreasing_by
  · have h := msizeFields_setField_reserved_le fs "parentNode" (vref p) (by decide)
    simp only [msize]
    omega
  · simp only [msize]
    omega

def parentizeElems : List JVal → Nat → List JVal
  | [], _ => []
  | v :: rest, p => parentizeElem v p :: parentizeElems rest p
termination_by es _ => msizeElems es
decreasing_by
  · simp only [msizeElems]
    omega
  · simp only [msizeElems]
    omega

def parentizeElem : JVal → Nat → JVal
  | vobj i fs, p =>
      if isNodeObj (vobj i fs) then
        vobj i (parentizeFields (setField fs "parentNode" (vref p)) i)
      else vobj i fs
  | v, _ => v
termination_by v _ => msize v
decreasing_by
  have h := msizeFields_setField_reserved_le fs "parentNode" (vref p) (by decide)
  simp only [msize]
  omega
end

/-- One visit step of the Parent Linker's walk at a tree's root: enter the
root with no parent (so it links to itself) and then walk its node children,
each child entered with its direct parent. -/
def parentizeVisit : JVal → Option Nat → JVal
  | vobj i fs, pid => vobj i (parentizeFields (setField fs "parentNode" (vref (pid.getD i))) i)
  | v, _ => v

/-- Parent Linker entry point: walk the tree and enter every node with
parentizeNode, the root receiving no parent (hence linking to itself). -/
def NodeUtils.parentizeAst (t : JVal) : JVal :=
  parentizeVisit t none

/-! The Tree Cloner.  cloneRecursive copies every own enumerable field of a
value except the parentNode back-reference: a null or regular-expression
value is kept by reference, an array field is mapped element-wise through
cloneRecursive itself, a nested object is cloned recursively, and every other
scalar is copied by value.  Fresh objects and arrays are allocated with
successive identities starting from the supplied counter, modelling the heap
allocations the JavaScript engine performs; the counter after the call is
returned alongside the copy. -/

/-- Index-keyed fields of a string, as enumerating the own keys of a string
coerced to an object yields its character positions. -/
def strFields (s : String) : List (String × JVal) :=
  s.toList.enum.map (fun p => (toString p.1, vstr (String.mk [p.2])))

mutual
def NodeUtils.cloneRecursive : JVal → Nat → JVal × Nat
  | vnull, c => (vnull, c)
  | vobj _ fs, c =>
      let r := NodeUtils.cloneFields fs (c + 1)
      (vobj c r.1, r.2)
  | varr _ es, c =>
      let r := NodeUtils.cloneArrayAsObject es 0 (c + 1)
      (vobj c r.1, r.2)
  | vregexp _ _, c => (vobj c [], c + 1)
  | vstr s, c => (vobj c (strFields s), c + 1)
  | vnum _, c => (vobj c [], c + 1)
  | vbool _, c => (vobj c [], c + 1)
  | vundef, c => (vundef, c)
  | vref a, c => (vref a, c)

def NodeUtils.cloneFields : List (String × JVal) → Nat → List (String × JVal) × Nat
  | [], c => ([], c)
  | (k, v) :: rest, c =>
      if k = "parentNode" then NodeUtils.cloneFields rest c
      else
        let r := NodeUtils.cloneField v c
        let r2 := NodeUtils.cloneFields rest r.2
        ((k, r.1) :: r2.1, r2.2)

def NodeUtils.cloneField : JVal → Nat → JVal × Nat
  | vnull, c => (vnull, c)
  | vregexp i s, c => (vregexp i s, c)
  | varr _ es, c =>
      let r := NodeUtils.cloneElems es (c + 1)
      (varr c r.1, r.2)
  | vobj _ fs, c =>
      let r := NodeUtils.cloneFields fs (c + 1)
      (vobj c r.1, r.2)
  | vref a, c => (vref a, c)
  | v, c => (v, c)

def NodeUtils.cloneElems : List JVal → Nat → List JVal × Nat
  | [], c => ([], c)
  | v :: rest, c =>
      let r := NodeUtils.cloneRecursive v c
      let r2 := NodeUtils.cloneElems rest r.2
      (r.1 :: r2.1, r2.2)

def NodeUtils.cloneArrayAsObject : List JVal → Nat → Nat → List (String × JVal) × Nat
  | [], _, c => ([], c)
  | v :: rest, idx, c =>
      let r := NodeUtils.cloneField v c
      let r2 := NodeUtils.cloneArrayAsObject rest (idx + 1) r.2
      ((toString idx, r.1) :: r2.1, r2.2)
end

/-
Notes on the cases of cloneRecursive that a syntax tree can never reach.
Cloning an array directly re-enumerates its index keys into a plain object
(cloneArrayAsObject), cloning a string re-enumerates its characters
(strFields), and cloning a number, boolean or regular expression yields a
fresh empty object, exactly as enumerating the own keys of those values
does.  cloneField is the per-field branch dispatch of the forEach body; an
object field shares cloneRecursive's object branch (written out so that the
recursion is structural).  Cloning undefined, which would be an error at run
time, and cloning a bare back-reference, which only ever sits under the
skipped parentNode key, are modelled as identity; the well-formedness
predicate used by the theorems rules both out of field and element positions.
-/

/-- Tree Cloner entry point: deep-copy the tree ignoring parent links and
reconstruct every parent link with a single Parent Linker pass over the
copy's root.  The counter argument models the next free object identity; the
caller passes one larger than every identity in the source tree, as a real
allocator never reuses a live address. -/
def NodeUtils.clone (t : JVal) (freshId : Nat) : JVal :=
  NodeUtils.parentizeAst (NodeUtils.cloneRecursive t freshId).1

/-! The Source to Tree Converter.  convertCodeToStructure invokes the
external parser and then walks the parsed program once; on entering a node
it assigns the parent link, attaches the verbatim annotation when the node
is a literal, and sets the metadata record.  The external parser is modelled
as an explicit function argument returning either a SyntaxError-kind failure
or the raw program tree, per the spec's external-interface contract. -/

/-- Verbatim annotation content: the parser's raw textual capture of the
literal, read from the node's raw field.  The capture is a string by the
parser contract; anything else yields an undefined content, as reading a
missing property would. -/
def xVerbatimContentOf (fs : List (String × JVal)) : JVal :=
  match lookupField fs "raw" with
  | some (vstr r) => vstr r
  | _ => vundef

/-- Attaches the x-verbatim-property annotation to a literal node: content is
the node's raw text, precedence the fixed primary precedence. -/
def NodeUtils.addXVerbatimPropertyTo (n : JVal) : JVal :=
  match n with
  | vobj i fs =>
      vobj i (setField fs "x-verbatim-property"
        (vobj 0 [("content", xVerbatimContentOf fs),
                 ("precedence", vnum escodegenPrecedencePrimary)]))
  | v => v

/-- One enter step of the conversion walk, applied to every visited node:
parent link, then verbatim annotation for literals, then metadata. -/
def convertEnter (n : JVal) (parentId : Option Nat) : JVal :=
  let n1 := NodeUtils.parentizeNode n parentId
  let n2 := if NodeGuards.isLiteralNode n1 then NodeUtils.addXVerbatimPropertyTo n1 else n1
  NodeMetadata.set n2

/-- Field-list form of convertEnter on an object node, used by the walker so
that its recursion has a measure. -/
def convertEnterFields (fs : List (String × JVal)) (selfId : Nat) (p : Nat) :
    List (String × JVal) :=
  let fs1 := setField fs "parentNode" (vref p)
  let fs2 :=
    if NodeGuards.isLiteralNode (vobj selfId fs1) then
      setField fs1 "x-verbatim-property"
        (vobj 0 [("content", xVerbatimContentOf fs1),
                 ("precedence", vnum escodegenPrecedencePrimary)])
    else fs1
  setField fs2 "metadata" NodeMetadata.cleanMetadata

theorem convertEnter_obj (i : Nat) (fs : List (String × JVal)) (pid : Option Nat) :
    convertEnter (vobj i fs) pid
      = vobj i (convertEnterFields fs i (pid.getD i)) := by
  show NodeMetadata.set _ = _
  simp only [convertEnter, convertEnterFields]
  by_cases hl : NodeGuards.isLiteralNode
      (vobj i (setField fs "parentNode" (vref (pid.getD i)))) = true
  · rw [show NodeUtils.parentizeNode (vobj i fs) pid
        = vobj i (setField fs "parentNode" (vref (pid.getD i))) from rfl,
      if_pos hl, if_pos hl]
    rfl
  · rw [show NodeUtils.parentizeNode (vobj i fs) pid
        = vobj i (setField fs "parentNode" (vref (pid.getD i))) from rfl,
      if_neg hl, if_neg hl]
    rfl

theorem msizeFields_convertEnterFields_le (fs : List (String × JVal)) (selfId p : Nat) :
    msizeFields (convertEnterFields fs selfId p) ≤ msizeFields fs + 3 := by
  simp only [convertEnterFields]
  have h1 := msizeFields_setField_reserved_le fs "parentNode" (vref p) (by decide)
  by_cases hl : NodeGuards.isLiteralNode
      (vobj selfId (setField fs "parentNode" (vref p))) = true
  · rw [if_pos hl]
    have h2 := msizeFields_setField_reserved_le
      (setField fs "parentNode" (vref p)) "x-verbatim-property"
      (vobj 0 [("content", xVerbatimContentOf (setField fs "parentNode" (vref p))),
               ("precedence", vnum escodegenPrecedencePrimary)]) (by decide)
    have h3 := msizeFields_setField_reserved_le
      (setField (setField fs "parentNode" (vref p)) "x-verbatim-property"
        (vobj 0 [("content", xVerbatimContentOf (setField fs "parentNode" (vref p))),
                 ("precedence", vnum escodegenPrecedencePrimary)]))
      "metadata" NodeMetadata.cleanMetadata (by decide)
    omega
  · rw [if_neg hl]
    have h3 := msizeFields_setField_reserved_le
      (setField fs "parentNode" (vref p)) "metadata" NodeMetadata.cleanMetadata (by decide)
    omega

mutual
def convertFields : List (String × JVal) → Nat → List (String × JVal)
  | [], _ => []
  | (k, v) :: rest, p =>
      (k, if _hk : isReserved k then v else convertChild v p) :: convertFields rest p
termination_by fs _ => msizeFields fs
decreasing_by
  · exact msize_head_lt k v rest (by simpa using _hk)
  · exact msizeFields_tail_lt k v rest

def convertChild : JVal → Nat → JVal
  | vobj i fs, p =>
      if isNodeObj (vobj i fs) then
        vobj i (convertFields (convertEnterFields fs i p) i)
      else vobj i fs
  | varr i es, p => varr i (convertElems es p)
  | v, _ => v
termination_by v _ => msize v
decreasing_by
  · have h := msizeFields_convertEnterFields_le fs i p
    simp only [msize]
    omega
  · simp only [msize]
    omega

def convertElems : List JVal → Nat → List JVal
  | [], _ => []
  | v :: rest, p => convertElem v p :: convertElems rest p
termination_by es _ => msizeElems es
decreasing_by
  · simp only [msizeElems]
    omega
  · simp only [msizeElems]
    omega

def convertElem : JVal → Nat → JVal
  | vobj i fs, p =>
      if isNodeObj (vobj i fs) then
        vobj i (convertFields (convertEnterFields fs i p) i)
      else vobj i fs
  | v, _ => v
termination_by v _ => msize v
decreasing_by
  have h := msizeFields_convertEnterFields_le fs i p
  simp only [msize]
  omega
end

/-- Root visit of the conversion walk: the root is entered with no parent and
its node children are then visited with their direct parents. -/
def convertVisit : JVal → Option Nat → JVal
  | vobj i fs, pid => vobj i (convertFields (convertEnterFields fs i (pid.getD i)) i)
  | v, _ => v

/-- Body of a program node: the ordered sequence of its top-level statement
nodes (the cast in the source is a type assertion only). -/
def bodyListOf (v : JVal) : List JVal :=
  match getProp v "body" with
  | some (varr _ es) => es
  | _ => []

/-- Text to nodes conversion: parse, walk the parsed program once entering
every node with convertEnter, and return the program's body.  A parser
failure propagates unmodified. -/
def NodeUtils.convertCodeToStructure (parse : String → Except String JVal)
    (code : String) : Except String (List JVal) :=
  match parse code with
  | Except.error e => Except.error e
  | Except.ok prog => Except.ok (bodyListOf (convertVisit prog none))

/-- Nodes to text conversion: generate code for each node independently with
the external code generator and concatenate the fragments in sequence order. -/
def NodeUtils.convertStructureToCode (generate : JVal → String)
    (nodes : List JVal) : String :=
  nodes.foldl (fun code node => code ++ generate node) ""

/-! The Unary-Chain Unwrapper. -/

/-- Reads a node's argument child; a missing property reads as undefined. -/
def argumentOf (n : JVal) : JVal :=
  match getProp n "argument" with
  | some v => v
  | none => vundef

theorem msize_argumentOf_lt (n : JVal)
    (h : NodeGuards.isUnaryExpressionNode (argumentOf n) = true) :
    msize (argumentOf n) < msize n := by
  match n with
  | vobj i fs =>
      cases hl : lookupField fs "argument" with
      | none =>
          have ha : argumentOf (vobj i fs) = vundef := by
            simp [argumentOf, getProp, hl]
          rw [ha] at h
          simp [NodeGuards.isUnaryExpressionNode, getProp] at h
      | some v =>
          have ha : argumentOf (vobj i fs) = v := by
            simp [argumentOf, getProp, hl]
          rw [ha]
          have := msize_lookupField_lt fs "argument" v (by decide) hl
          simp only [msize]
          omega
  | vnull => simp [argumentOf, getProp, NodeGuards.isUnaryExpressionNode] at h
  | vundef => simp [argumentOf, getProp, NodeGuards.isUnaryExpressionNode] at h
  | vbool b => simp [argumentOf, getProp, NodeGuards.isUnaryExpressionNode] at h
  | vnum m => simp [argumentOf, getProp, NodeGuards.isUnaryExpressionNode] at h
  | vstr s => simp [argumentOf, getProp, NodeGuards.isUnaryExpressionNode] at h
  | vregexp i s => simp [argumentOf, getProp, NodeGuards.isUnaryExpressionNode] at h
  | vref a => simp [argumentOf, getProp, NodeGuards.isUnaryExpressionNode] at h
  | varr i es => simp [argumentOf, getProp, NodeGuards.isUnaryExpressionNode] at h

/-- Follows nested unary-expression arguments until the first argument that
is not a unary expression, returning that innermost argument node. -/
def NodeUtils.getUnaryExpressionArgumentNode (n : JVal) : JVal :=
  if h : NodeGuards.isUnaryExpressionNode (argumentOf n) then
    NodeUtils.getUnaryExpressionArgumentNode (argumentOf n)
  else argumentOf n
termination_by msize n
decreasing_by
  exact msize_argumentOf_lt n h

/-! Specification-side observers.  These are the notions the guarantees are
stated with: deep equality ignoring parent links (via the strip normal form),
the multiset of mutable object identities, well-formedness of syntax trees,
correctness of every parent link, and a checker running one predicate over
every node the walking engine would visit. -/

mutual
/-- Normal form for deep equality that ignores parent links and object
identity: parentNode bindings are dropped and object and array identities are
zeroed.  Regular-expression identities are kept, because a regular expression
is compared (and copied) as a reference. -/
def stripV : JVal → JVal
  | vobj _ fs => vobj 0 (stripFields fs)
  | varr _ es => varr 0 (stripElems es)
  | v => v

def stripFields : List (String × JVal) → List (String × JVal)
  | [] => []
  | (k, v) :: rest =>
      if k = "parentNode" then stripFields rest
      else (k, stripV v) :: stripFields rest

def stripElems : List JVal → List JVal
  | [] => []
  | v :: rest => stripV v :: stripElems rest
end

mutual
/-- Identities of every mutable structured value (object or array) in a tree,
in preorder.  Regular expressions are excluded: the data model treats them as
atomic immutable values. -/
def structIds : JVal → List Nat
  | vobj i fs => i :: structIdsFields fs
  | varr i es => i :: structIdsElems es
  | _ => []

def structIdsFields : List (String × JVal) → List Nat
  | [] => []
  | (_, v) :: rest => structIds v ++ structIdsFields rest

def structIdsElems : List JVal → List Nat
  | [] => []
  | v :: rest => structIds v ++ structIdsElems rest
end

mutual
/-- Well-formedness of a value sitting in a field of a syntax tree: arrays
hold only nodes (objects) or null holes, and a bare back-reference value
never occurs outside a parentNode binding.  Scalars are always well formed. -/
def wfVal : JVal → Bool
  | vobj _ fs => wfFields fs
  | varr _ es => wfElems es
  | vref _ => false
  | _ => true

def wfFields : List (String × JVal) → Bool
  | [] => true
  | (k, v) :: rest =>
      (if k = "parentNode" then true else wfVal v) && wfFields rest

def wfElems : List JVal → Bool
  | [] => true
  | v :: rest =>
      (match v with
       | vnull => true
       | vobj _ fs => wfFields fs
       | _ => false) && wfElems rest
end

/-- Checks that an object's parentNode binding is a reference to the given
identity. -/
def parentRefIs (fs : List (String × JVal)) (p : Nat) : Bool :=
  match lookupField fs "parentNode" with
  | some (vref a) => a == p
  | _ => false

mutual
/-- Checks every parent link of a tree: the value itself must reference the
expected parent identity, and each node child (reachable exactly as the
walking engine reaches it) must reference the identity of the object that
structurally contains it. -/
def parentsLinkedB : JVal → Nat → Bool
  | vobj i fs, p => parentRefIs fs p && parentsLinkedFields fs i
  | _, _ => true

def parentsLinkedFields : List (String × JVal) → Nat → Bool
  | [], _ => true
  | (k, v) :: rest, i =>
      (if isReserved k then true else childLinkedB v i) && parentsLinkedFields rest i

def childLinkedB : JVal → Nat → Bool
  | vobj i fs, p =>
      if isNodeObj (vobj i fs) then parentRefIs fs p && parentsLinkedFields fs i
      else true
  | varr _ es, p => elemsLinkedB es p
  | _, _ => true

def elemsLinkedB : List JVal → Nat → Bool
  | [], _ => true
  | v :: rest, p => elemLinkedB v p && elemsLinkedB rest p

def elemLinkedB : JVal → Nat → Bool
  | vobj i fs, p =>
      if isNodeObj (vobj i fs) then parentRefIs fs p && parentsLinkedFields fs i
      else true
  | _, _ => true
end

mutual
/-- Runs a node predicate over the root and every node the walking engine
visits beneath it. -/
def allNodesB (q : JVal → Bool) : JVal → Bool
  | vobj i fs => q (vobj i fs) && allNodesFields q fs
  | _ => true

def allNodesFields (q : JVal → Bool) : List (String × JVal) → Bool
  | [] => true
  | (k, v) :: rest =>
      (if isReserved k then true else allNodesChild q v) && allNodesFields q rest

def allNodesChild (q : JVal → Bool) : JVal → Bool
  | vobj i fs =>
      if isNodeObj (vobj i fs) then q (vobj i fs) && allNodesFields q fs
      else true
  | varr _ es => allNodesElems q es
  | _ => true

def allNodesElems (q : JVal → Bool) : List JVal → Bool
  | [] => true
  | v :: rest => allNodesElem q v && allNodesElems q rest

def allNodesElem (q : JVal → Bool) : JVal → Bool
  | vobj i fs =>
      if isNodeObj (vobj i fs) then q (vobj i fs) && allNodesFields q fs
      else true
  | _ => true
end

/-- Node predicate: the metadata binding is exactly the record
{ ignoredNode: false }. -/
def hasCleanMetadata (n : JVal) : Bool :=
  match getProp n "metadata" with
  | some (vobj _ [("ignoredNode", vbool false)]) => true
  | _ => false

/-- Node predicate: a literal node carries a string raw capture (the parser
contract for literal nodes). -/
def litRawOK (n : JVal) : Bool :=
  !NodeGuards.isLiteralNode n ||
    (match getProp n "raw" with
     | some (vstr _) => true
     | _ => false)

/-- Node predicate: a literal node carries a verbatim annotation whose content
is exactly the literal's raw text and whose precedence is the fixed primary
precedence. -/
def literalVerbatimOK (n : JVal) : Bool :=
  !NodeGuards.isLiteralNode n ||
    (match getProp n "x-verbatim-property", getProp n "raw" with
     | some (vobj _ [("content", vstr c), ("precedence", vnum p)]), some (vstr r) =>
         c == r && p == escodegenPrecedencePrimary
     | _, _ => false)

mutual
/-- Mutation model: write a marker into every object or array carrying the
given identity, anywhere in the tree (an object gains a marker binding, an
array a pushed element).  Mutating an identity that does not occur in a tree
leaves the tree untouched, which is exactly what it means for two trees to
share no mutable state. -/
def stampById (target : Nat) (m : JVal) : JVal → JVal
  | vobj i fs =>
      if i = target then vobj i (setField (stampFields target m fs) "stamped" m)
      else vobj i (stampFields target m fs)
  | varr i es =>
      if i = target then varr i (stampElems target m es ++ [m])
      else varr i (stampElems target m es)
  | v => v

def stampFields (target : Nat) (m : JVal) : List (String × JVal) → List (String × JVal)
  | [] => []
  | (k, v) :: rest => (k, stampById target m v) :: stampFields target m rest

def stampElems (target : Nat) (m : JVal) : List JVal → List JVal
  | [] => []
  | v :: rest => stampById target m v :: stampElems target m rest
end

/-! Interaction lemmas for property reads, writes and the walkers. -/

theorem lookupField_setField_self (fs : List (String × JVal)) (k : String) (w : JVal) :
    lookupField (setField fs k w) k = some w := by
  induction fs with
  | nil => simp [setField, lookupField]
  | cons p rest ih =>
      obtain ⟨k', v⟩ := p
      by_cases h : k' = k
      · subst h
        simp [setField, lookupField]
      · simp [setField, h, lookupField, ih]

theorem lookupField_setField_ne (fs : List (String × JVal)) (k : String) (w : JVal)
    (k' : String) (h : k' ≠ k) :
    lookupField (setField fs k w) k' = lookupField fs k' := by
  induction fs with
  | nil =>
      simp [setField, lookupField, Ne.symm h]
  | cons p rest ih =>
      obtain ⟨k0, v⟩ := p
      by_cases h0 : k0 = k
      · subst h0
        simp [setField, lookupField, Ne.symm h]
      · simp only [setField, if_neg h0, lookupField]
        by_cases h1 : k0 = k'
        · simp [h1]
        · simp [h1, ih]

/-- Option-level check that a property value tags an object as a node. -/
def isTypeTagged : Option JVal → Bool
  | some (vstr _) => true
  | _ => false

theorem isNodeObj_obj (i : Nat) (fs : List (String × JVal)) :
    isNodeObj (vobj i fs) = isTypeTagged (lookupField fs "type") := by
  simp only [isNodeObj, isTypeTagged]

theorem lookupField_parentizeFields (fs : List (String × JVal)) (p : Nat) (k : String) :
    lookupField (parentizeFields fs p) k
      = (lookupField fs k).map (fun v => if isReserved k then v else parentizeChild v p) := by
  induction fs with
  | nil => simp [parentizeFields, lookupField]
  | cons q rest ih =>
      obtain ⟨k', v⟩ := q
      by_cases h : k' = k
      · subst h
        simp [parentizeFields, lookupField, dite_eq_ite]
      · simp [parentizeFields, lookupField, h, ih]

theorem lookupField_convertFields (fs : List (String × JVal)) (p : Nat) (k : String) :
    lookupField (convertFields fs p) k
      = (lookupField fs k).map (fun v => if isReserved k then v else convertChild v p) := by
  induction fs with
  | nil => simp [convertFields, lookupField]
  | cons q rest ih =>
      obtain ⟨k', v⟩ := q
      by_cases h : k' = k
      · subst h
        simp [convertFields, lookupField, dite_eq_ite]
      · simp [convertFields, lookupField, h, ih]

theorem parentizeChild_typeTagged (v : JVal) (p : Nat) :
    isTypeTagged (some (parentizeChild v p)) = isTypeTagged (some v) := by
  cases v with
  | vobj i fs =>
      by_cases hc : isNodeObj (vobj i fs) = true
      · simp [parentizeChild, hc, isTypeTagged]
      · simp [parentizeChild, hc, isTypeTagged]
  | varr i es => simp [parentizeChild, isTypeTagged]
  | vnull => simp [parentizeChild, isTypeTagged]
  | vundef => simp [parentizeChild, isTypeTagged]
  | vbool b => simp [parentizeChild, isTypeTagged]
  | vnum n => simp [parentizeChild, isTypeTagged]
  | vstr s => simp [parentizeChild, isTypeTagged]
  | vregexp i s => simp [parentizeChild, isTypeTagged]
  | vref a => simp [parentizeChild, isTypeTagged]

theorem convertChild_typeTagged (v : JVal) (p : Nat) :
    isTypeTagged (some (convertChild v p)) = isTypeTagged (some v) := by
  cases v with
  | vobj i fs =>
      by_cases hc : isNodeObj (vobj i fs) = true
      · simp [convertChild, hc, isTypeTagged]
      · simp [convertChild, hc, isTypeTagged]
  | varr i es => simp [convertChild, isTypeTagged]
  | vnull => simp [convertChild, isTypeTagged]
  | vundef => simp [convertChild, isTypeTagged]
  | vbool b => simp [convertChild, isTypeTagged]
  | vnum n => simp [convertChild, isTypeTagged]
  | vstr s => simp [convertChild, isTypeTagged]
  | vregexp i s => simp [convertChild, isTypeTagged]
  | vref a => simp [convertChild, isTypeTagged]

theorem isNodeObj_parentizeFields (j : Nat) (fs : List (String × JVal)) (p : Nat) :
    isNodeObj (vobj j (parentizeFields fs p)) = isNodeObj (vobj j fs) := by
  rw [isNodeObj_obj, isNodeObj_obj, lookupField_parentizeFields]
  cases hl : lookupField fs "type" with
  | none => rfl
  | some v =>
      show isTypeTagged (some (if isReserved "type" then v else parentizeChild v p))
        = isTypeTagged (some v)
      rw [show (if isReserved "type" then v else parentizeChild v p) = parentizeChild v p
          from by simp [isReserved]]
      exact parentizeChild_typeTagged v p

theorem isNodeObj_convertFields (j : Nat) (fs : List (String × JVal)) (p : Nat) :
    isNodeObj (vobj j (convertFields fs p)) = isNodeObj (vobj j fs) := by
  rw [isNodeObj_obj, isNodeObj_obj, lookupField_convertFields]
  cases hl : lookupField fs "type" with
  | none => rfl
  | some v =>
      show isTypeTagged (some (if isReserved "type" then v else convertChild v p))
        = isTypeTagged (some v)
      rw [show (if isReserved "type" then v else convertChild v p) = convertChild v p
          from by simp [isReserved]]
      exact convertChild_typeTagged v p

/-! Correctness of the Parent Linker: after the walk, every visited node's
parentNode references the identity of the object that structurally contains
it, and the object the walk entered parent-less references the supplied
expected identity. -/

mutual
theorem pl_node : ∀ (i : Nat) (fs : List (String × JVal)) (p : Nat),
    (parentRefIs (parentizeFields (setField fs "parentNode" (vref p)) i) p
      && parentsLinkedFields (parentizeFields (setField fs "parentNode" (vref p)) i) i) = true
  | i, fs, p => by
      rw [Bool.and_eq_true]
      constructor
      · rw [show parentRefIs (parentizeFields (setField fs "parentNode" (vref p)) i) p
            = (match lookupField (parentizeFields (setField fs "parentNode" (vref p)) i)
                "parentNode" with
               | some (vref a) => a == p
               | _ => false) from rfl]
        rw [lookupField_parentizeFields, lookupField_setField_self]
        simp [isReserved]
      · exact pl_fields (setField fs "parentNode" (vref p)) i
termination_by i fs p => 2 * (4 + msizeFields fs)
decreasing_by
  have h := msizeFields_setField_reserved_le fs "parentNode" (vref p) (by decide)
  omega

theorem pl_fields : ∀ (fs : List (String × JVal)) (i : Nat),
    parentsLinkedFields (parentizeFields fs i) i = true
  | [], i => by simp [parentizeFields, parentsLinkedFields]
  | (k, v) :: rest, i => by
      by_cases hk : isReserved k = true
      · simp [parentizeFields, parentsLinkedFields, hk, pl_fields rest i]
      · simp [parentizeFields, parentsLinkedFields, hk, pl_fields rest i, pl_child v i]
termination_by fs i => 2 * msizeFields fs
decreasing_by
  all_goals first
    | (have h := msizeFields_tail_lt k v rest
       omega)
    | (have h1 := msize_head_lt k v rest (by simpa using hk)
       omega)

theorem pl_child : ∀ (v : JVal) (i : Nat), childLinkedB (parentizeChild v i) i = true
  | vobj j fs, i => by
      by_cases hn : isNodeObj (vobj j fs) = true
      · rw [show parentizeChild (vobj j fs) i
            = vobj j (parentizeFields (setField fs "parentNode" (vref i)) j)
            from by simp [parentizeChild, hn]]
        rw [show childLinkedB (vobj j (parentizeFields (setField fs "parentNode" (vref i)) j)) i
            = if isNodeObj (vobj j (parentizeFields (setField fs "parentNode" (vref i)) j)) then
                parentRefIs (parentizeFields (setField fs "parentNode" (vref i)) j) i
                  && parentsLinkedFields (parentizeFields (setField fs "parentNode" (vref i)) j) j
              else true
            from by simp [childLinkedB]]
        by_cases hn2 : isNodeObj (vobj j (parentizeFields (setField fs "parentNode" (vref i)) j)) = true
        · rw [if_pos hn2]
          exact pl_node j fs i
        · rw [if_neg hn2]
      · simp [parentizeChild, hn, childLinkedB]
  | varr j es, i => by
      rw [show parentizeChild (varr j es) i = varr j (parentizeElems es i)
          from by simp [parentizeChild]]
      rw [show childLinkedB (varr j (parentizeElems es i)) i = elemsLinkedB (parentizeElems es i) i
          from by simp [childLinkedB]]
      exact pl_elems es i
  | vnull, i => by simp [parentizeChild, childLinkedB]
  | vundef, i => by simp [parentizeChild, childLinkedB]
  | vbool b, i => by simp [parentizeChild, childLinkedB]
  | vnum n, i => by simp [parentizeChild, childLinkedB]
  | vstr s, i => by simp [parentizeChild, childLinkedB]
  | vregexp j s, i => by simp [parentizeChild, childLinkedB]
  | vref a, i => by simp [parentizeChild, childLinkedB]
termination_by v i => 2 * msize v + 1
decreasing_by
  · simp only [msize]
    omega
  · simp only [msize]
    omega

theorem pl_elems : ∀ (es : List JVal) (i : Nat), elemsLinkedB (parentizeElems es i) i = true
  | [], i => by simp [parentizeElems, elemsLinkedB]
  | v :: rest, i => by
      simp [parentizeElems, elemsLinkedB, pl_elem v i, pl_elems rest i]
termination_by es i => 2 * msizeElems es
decreasing_by
  · simp only [msizeElems]
    omega
  · simp only [msizeElems]
    omega

theorem pl_elem : ∀ (v : JVal) (i : Nat), elemLinkedB (parentizeElem v i) i = true
  | vobj j fs, i => by
      by_cases hn : isNodeObj (vobj j fs) = true
      · rw [show parentizeElem (vobj j fs) i
            = vobj j (parentizeFields (setField fs "parentNode" (vref i)) j)
            from by simp [parentizeElem, hn]]
        rw [show elemLinkedB (vobj j (parentizeFields (setField fs "parentNode" (vref i)) j)) i
            = if isNodeObj (vobj j (parentizeFields (setField fs "parentNode" (vref i)) j)) then
                parentRefIs (parentizeFields (setField fs "parentNode" (vref i)) j) i
                  && parentsLinkedFields (parentizeFields (setField fs "parentNode" (vref i)) j) j
              else true
            from by simp [elemLinkedB]]
        by_cases hn2 : isNodeObj (vobj j (parentizeFields (setField fs "parentNode" (vref i)) j)) = true
        · rw [if_pos hn2]
          exact pl_node j fs i
        · rw [if_neg hn2]
      · simp [parentizeElem, hn, elemLinkedB]
  | varr j es, i => by simp [parentizeElem, elemLinkedB]
  | vnull, i => by simp [parentizeElem, elemLinkedB]
  | vundef, i => by simp [parentizeElem, elemLinkedB]
  | vbool b, i => by simp [parentizeElem, elemLinkedB]
  | vnum n, i => by simp [parentizeElem, elemLinkedB]
  | vstr s, i => by simp [parentizeElem, elemLinkedB]
  | vregexp j s, i => by simp [parentizeElem, elemLinkedB]
  | vref a, i => by simp [parentizeElem, elemLinkedB]
termination_by v i => 2 * msize v + 1
decreasing_by
  simp only [msize]
  omega
end

/-! The Parent Linker only touches parentNode bindings, so it preserves the
strip normal form (deep equality ignoring parent links) and introduces no new
mutable identities. -/

theorem stripFields_setField_parent (fs : List (String × JVal)) (w : JVal) :
    stripFields (setField fs "parentNode" w) = stripFields fs := by
  induction fs with
  | nil => simp [setField, stripFields]
  | cons p rest ih =>
      obtain ⟨k, v⟩ := p
      by_cases h : k = "parentNode"
      · subst h
        simp [setField, stripFields]
      · simp [setField, h, stripFields, ih]

theorem structIdsFields_setField_ref_sub (fs : List (String × JVal)) (k : String)
    (x : Nat) (j : Nat) (h : j ∈ structIdsFields (setField fs k (vref x))) :
    j ∈ structIdsFields fs := by
  induction fs with
  | nil => simp [setField, structIdsFields, structIds] at h
  | cons p rest ih =>
      obtain ⟨k0, v⟩ := p
      by_cases h0 : k0 = k
      · subst h0
        simp only [setField, if_pos rfl, structIdsFields, structIds,
          List.nil_append] at h
        simp only [structIdsFields, List.mem_append]
        exact Or.inr h
      · simp only [setField, if_neg h0, structIdsFields, List.mem_append] at h
        simp only [structIdsFields, List.mem_append]
        rcases h with h | h
        · exact Or.inl h
        · exact Or.inr (ih h)

mutual
theorem sp_fields : ∀ (fs : List (String × JVal)) (i : Nat),
    stripFields (parentizeFields fs i) = stripFields fs
  | [], i => by simp [parentizeFields, stripFields]
  | (k, v) :: rest, i => by
      by_cases hp : k = "parentNode"
      · subst hp
        simp [parentizeFields, stripFields, isReserved, sp_fields rest i]
      · by_cases hk : isReserved k = true
        · simp [parentizeFields, stripFields, hk, hp, sp_fields rest i]
        · simp [parentizeFields, stripFields, hk, hp, sp_fields rest i, sp_child v i]
termination_by fs i => 2 * msizeFields fs
decreasing_by
  all_goals first
    | (have h := msizeFields_tail_lt k v rest
       omega)
    | (have h1 := msize_head_lt k v rest (by simpa using hk)
       omega)

theorem sp_child : ∀ (v : JVal) (i : Nat), stripV (parentizeChild v i) = stripV v
  | vobj j fs, i => by
      by_cases hn : isNodeObj (vobj j fs) = true
      · rw [show parentizeChild (vobj j fs) i
            = vobj j (parentizeFields (setField fs "parentNode" (vref i)) j)
            from by simp [parentizeChild, hn]]
        rw [show stripV (vobj j (parentizeFields (setField fs "parentNode" (vref i)) j))
            = vobj 0 (stripFields (parentizeFields (setField fs "parentNode" (vref i)) j))
            from by simp [stripV]]
        rw [sp_fields (setField fs "parentNode" (vref i)) j,
          stripFields_setField_parent fs (vref i)]
        simp [stripV]
      · simp [parentizeChild, hn]
  | varr j es, i => by
      rw [show parentizeChild (varr j es) i = varr j (parentizeElems es i)
          from by simp [parentizeChild]]
      simp [stripV, sp_elems es i]
  | vnull, i => by simp [parentizeChild]
  | vundef, i => by simp [parentizeChild]
  | vbool b, i => by simp [parentizeChild]
  | vnum n, i => by simp [parentizeChild]
  | vstr s, i => by simp [parentizeChild]
  | vregexp j s, i => by simp [parentizeChild]
  | vref a, i => by simp [parentizeChild]
termination_by v i => 2 * msize v + 1
decreasing_by
  · have h := msizeFields_setField_reserved_le fs "parentNode" (vref i) (by decide)
    simp only [msize]
    omega
  · simp only [msize]
    omega

theorem sp_elems : ∀ (es : List JVal) (i : Nat),
    stripElems (parentizeElems es i) = stripElems es
  | [], i => by simp [parentizeElems, stripElems]
  | v :: rest, i => by
      simp [parentizeElems, stripElems, sp_elem v i, sp_elems rest i]
termination_by es i => 2 * msizeElems es
decreasing_by
  · simp only [msizeElems]
    omega
  · simp only [msizeElems]
    omega

theorem sp_elem : ∀ (v : JVal) (i : Nat), stripV (parentizeElem v i) = stripV v
  | vobj j fs, i => by
      by_cases hn : isNodeObj (vobj j fs) = true
      · rw [show parentizeElem (vobj j fs) i
            = vobj j (parentizeFields (setField fs "parentNode" (vref i)) j)
            from by simp [parentizeElem, hn]]
        rw [show stripV (vobj j (parentizeFields (setField fs "parentNode" (vref i)) j))
            = vobj 0 (stripFields (parentizeFields (setField fs "parentNode" (vref i)) j))
            from by simp [stripV]]
        rw [sp_fields (setField fs "parentNode" (vref i)) j,
          stripFields_setField_parent fs (vref i)]
        simp [stripV]
      · simp [parentizeElem, hn]
  | varr j es, i => by simp [parentizeElem]
  | vnull, i => by simp [parentizeElem]
  | vundef, i => by simp [parentizeElem]
  | vbool b, i => by simp [parentizeElem]
  | vnum n, i => by simp [parentizeElem]
  | vstr s, i => by simp [parentizeElem]
  | vregexp j s, i => by simp [parentizeElem]
  | vref a, i => by simp [parentizeElem]
termination_by v i => 2 * msize v + 1
decreasing_by
  have h := msizeFields_setField_reserved_le fs "parentNode" (vref i) (by decide)
  simp only [msize]
  omega
end

mutual
theorem ip_fields : ∀ (fs : List (String × JVal)) (i j : Nat),
    j ∈ structIdsFields (parentizeFields fs i) → j ∈ structIdsFields fs
  | [], i, j => by simp [parentizeFields]
  | (k, v) :: rest, i, j => by
      intro h
      by_cases hk : isReserved k = true
      · simp only [parentizeFields, dif_pos hk, structIdsFields, List.mem_append] at h
        simp only [structIdsFields, List.mem_append]
        rcases h with h | h
        · exact Or.inl h
        · exact Or.inr (ip_fields rest i j h)
      · simp only [parentizeFields, dif_neg hk, structIdsFields, List.mem_append] at h
        simp only [structIdsFields, List.mem_append]
        rcases h with h | h
        · exact Or.inl (ip_child v i j h)
        · exact Or.inr (ip_fields rest i j h)
termination_by fs i j => 2 * msizeFields fs
decreasing_by
  all_goals first
    | (have h := msizeFields_tail_lt k v rest
       omega)
    | (have h1 := msize_head_lt k v rest (by simpa using hk)
       omega)

theorem ip_child : ∀ (v : JVal) (i j : Nat),
    j ∈ structIds (parentizeChild v i) → j ∈ structIds v
  | vobj j0 fs, i, j => by
      intro h
      by_cases hn : isNodeObj (vobj j0 fs) = true
      · rw [show parentizeChild (vobj j0 fs) i
            = vobj j0 (parentizeFields (setField fs "parentNode" (vref i)) j0)
            from by simp [parentizeChild, hn]] at h
        simp only [structIds, List.mem_cons] at h
        simp only [structIds, List.mem_cons]
        rcases h with h | h
        · exact Or.inl h
        · exact Or.inr (structIdsFields_setField_ref_sub fs "parentNode" i j
            (ip_fields (setField fs "parentNode" (vref i)) j0 j h))
      · rw [show parentizeChild (vobj j0 fs) i = vobj j0 fs
            from by simp [parentizeChild, hn]] at h
        exact h
  | varr j0 es, i, j => by
      intro h
      rw [show parentizeChild (varr j0 es) i = varr j0 (parentizeElems es i)
          from by simp [parentizeChild]] at h
      simp only [structIds, List.mem_cons] at h
      simp only [structIds, List.mem_cons]
      rcases h with h | h
      · exact Or.inl h
      · exact Or.inr (ip_elems es i j h)
  | vnull, i, j => by simp [parentizeChild]
  | vundef, i, j => by simp [parentizeChild]
  | vbool b, i, j => by simp [parentizeChild]
  | vnum n, i, j => by simp [parentizeChild]
  | vstr s, i, j => by simp [parentizeChild]
  | vregexp j0 s, i, j => by simp [parentizeChild]
  | vref a, i, j => by simp [parentizeChild]
termination_by v i j => 2 * msize v + 1
decreasing_by
  · have h := msizeFields_setField_reserved_le fs "parentNode" (vref i) (by decide)
    simp only [msize]
    omega
  · simp only [msize]
    omega

theorem ip_elems : ∀ (es : List JVal) (i j : Nat),
    j ∈ structIdsElems (parentizeElems es i) → j ∈ structIdsElems es
  | [], i, j => by simp [parentizeElems]
  | v :: rest, i, j => by
      intro h
      simp only [parentizeElems, structIdsElems, List.mem_append] at h
      simp only [structIdsElems, List.mem_append]
      rcases h with h | h
      · exact Or.inl (ip_elem v i j h)
      · exact Or.inr (ip_elems rest i j h)
termination_by es i j => 2 * msizeElems es
decreasing_by
  · simp only [msizeElems]
    omega
  · simp only [msizeElems]
    omega

theorem ip_elem : ∀ (v : JVal) (i j : Nat),
    j ∈ structIds (parentizeElem v i) → j ∈ structIds v
  | vobj j0 fs, i, j => by
      intro h
      by_cases hn : isNodeObj (vobj j0 fs) = true
      · rw [show parentizeElem (vobj j0 fs) i
            = vobj j0 (parentizeFields (setField fs "parentNode" (vref i)) j0)
            from by simp [parentizeElem, hn]] at h
        simp only [structIds, List.mem_cons] at h
        simp only [structIds, List.mem_cons]
        rcases h with h | h
        · exact Or.inl h
        · exact Or.inr (structIdsFields_setField_ref_sub fs "parentNode" i j
            (ip_fields (setField fs "parentNode" (vref i)) j0 j h))
      · rw [show parentizeElem (vobj j0 fs) i = vobj j0 fs
            from by simp [parentizeElem, hn]] at h
        exact h
  | varr j0 es, i, j => by simp [parentizeElem]
  | vnull, i, j => by simp [parentizeElem]
  | vundef, i, j => by simp [parentizeElem]
  | vbool b, i, j => by simp [parentizeElem]
  | vnum n, i, j => by simp [parentizeElem]
  | vstr s, i, j => by simp [parentizeElem]
  | vregexp j0 s, i, j => by simp [parentizeElem]
  | vref a, i, j => by simp [parentizeElem]
termination_by v i j => 2 * msize v + 1
decreasing_by
  have h := msizeFields_setField_reserved_le fs "parentNode" (vref i) (by decide)
  simp only [msize]
  omega
end

/-! The Tree Cloner preserves the strip normal form on well-formed trees:
the copy is deep-equal to the source once parent links and object identities
are ignored, and regular-expression values keep their identity (reference
copy). -/

mutual
theorem sc_fields : ∀ (fs : List (String × JVal)) (c : Nat),
    wfFields fs = true → stripFields (NodeUtils.cloneFields fs c).1 = stripFields fs
  | [], c, _ => by simp [NodeUtils.cloneFields, stripFields]
  | (k, v) :: rest, c, h => by
      simp only [wfFields, Bool.and_eq_true] at h
      by_cases hp : k = "parentNode"
      · subst hp
        rw [show (NodeUtils.cloneFields (("parentNode", v) :: rest) c)
            = NodeUtils.cloneFields rest c from by simp [NodeUtils.cloneFields]]
        rw [show stripFields (("parentNode", v) :: rest) = stripFields rest
            from by simp [stripFields]]
        exact sc_fields rest c h.2
      · rw [show (NodeUtils.cloneFields ((k, v) :: rest) c)
            = ((k, (NodeUtils.cloneField v c).1)
                :: (NodeUtils.cloneFields rest (NodeUtils.cloneField v c).2).1,
               (NodeUtils.cloneFields rest (NodeUtils.cloneField v c).2).2)
            from by simp [NodeUtils.cloneFields, hp]]
        rw [show stripFields ((k, v) :: rest) = (k, stripV v) :: stripFields rest
            from by simp [stripFields, hp]]
        rw [show stripFields ((k, (NodeUtils.cloneField v c).1)
              :: (NodeUtils.cloneFields rest (NodeUtils.cloneField v c).2).1)
            = (k, stripV (NodeUtils.cloneField v c).1)
              :: stripFields (NodeUtils.cloneFields rest (NodeUtils.cloneField v c).2).1
            from by simp [stripFields, hp]]
        rw [sc_field v c (by
              rw [if_neg hp] at h
              exact h.1),
          sc_fields rest (NodeUtils.cloneField v c).2 h.2]
termination_by fs c _ => sizeOf fs
decreasing_by
  all_goals simp_wf <;> omega

theorem sc_field : ∀ (v : JVal) (c : Nat),
    wfVal v = true → stripV (NodeUtils.cloneField v c).1 = stripV v
  | vobj i fs, c, h => by
      rw [show (NodeUtils.cloneField (vobj i fs) c).1
          = vobj c (NodeUtils.cloneFields fs (c + 1)).1
          from by simp [NodeUtils.cloneField]]
      rw [show stripV (vobj c (NodeUtils.cloneFields fs (c + 1)).1)
          = vobj 0 (stripFields (NodeUtils.cloneFields fs (c + 1)).1) from by simp [stripV]]
      rw [sc_fields fs (c + 1) (by simpa [wfVal] using h)]
      simp [stripV]
  | varr i es, c, h => by
      rw [show (NodeUtils.cloneField (varr i es) c).1
          = varr c (NodeUtils.cloneElems es (c + 1)).1
          from by simp [NodeUtils.cloneField]]
      rw [show stripV (varr c (NodeUtils.cloneElems es (c + 1)).1)
          = varr 0 (stripElems (NodeUtils.cloneElems es (c + 1)).1) from by simp [stripV]]
      rw [sc_elems es (c + 1) (by simpa [wfVal] using h)]
      simp [stripV]
  | vnull, c, _ => by simp [NodeUtils.cloneField]
  | vundef, c, _ => by simp [NodeUtils.cloneField]
  | vbool b, c, _ => by simp [NodeUtils.cloneField]
  | vnum n, c, _ => by simp [NodeUtils.cloneField]
  | vstr s, c, _ => by simp [NodeUtils.cloneField]
  | vregexp i s, c, _ => by simp [NodeUtils.cloneField]
  | vref a, c, h => by simp [wfVal] at h
termination_by v c _ => sizeOf v
decreasing_by
  all_goals simp_wf <;> omega

theorem sc_elems : ∀ (es : List JVal) (c : Nat),
    wfElems es = true → stripElems (NodeUtils.cloneElems es c).1 = stripElems es
  | [], c, _ => by simp [NodeUtils.cloneElems, stripElems]
  | vnull :: rest, c, h => by
      simp only [wfElems, Bool.and_eq_true] at h
      rw [show (NodeUtils.cloneElems (vnull :: rest) c)
          = ((NodeUtils.cloneRecursive vnull c).1
              :: (NodeUtils.cloneElems rest (NodeUtils.cloneRecursive vnull c).2).1,
             (NodeUtils.cloneElems rest (NodeUtils.cloneRecursive vnull c).2).2)
          from by simp [NodeUtils.cloneElems]]
      rw [show NodeUtils.cloneRecursive vnull c = (vnull, c) from rfl]
      rw [show stripElems (vnull :: (NodeUtils.cloneElems rest c).1)
          = stripV vnull :: stripElems (NodeUtils.cloneElems rest c).1
          from by simp [stripElems]]
      rw [show stripElems (vnull :: rest) = stripV vnull :: stripElems rest
          from by simp [stripElems]]
      rw [sc_elems rest c h.2]
  | vobj i fs :: rest, c, h => by
      simp only [wfElems, Bool.and_eq_true] at h
      rw [show (NodeUtils.cloneElems (vobj i fs :: rest) c)
          = ((NodeUtils.cloneRecursive (vobj i fs) c).1
              :: (NodeUtils.cloneElems rest (NodeUtils.cloneRecursive (vobj i fs) c).2).1,
             (NodeUtils.cloneElems rest (NodeUtils.cloneRecursive (vobj i fs) c).2).2)
          from by simp [NodeUtils.cloneElems]]
      rw [show stripElems ((NodeUtils.cloneRecursive (vobj i fs) c).1
            :: (NodeUtils.cloneElems rest (NodeUtils.cloneRecursive (vobj i fs) c).2).1)
          = stripV (NodeUtils.cloneRecursive (vobj i fs) c).1
            :: stripElems (NodeUtils.cloneElems rest
                (NodeUtils.cloneRecursive (vobj i fs) c).2).1
          from by simp [stripElems]]
      rw [show stripElems (vobj i fs :: rest) = stripV (vobj i fs) :: stripElems rest
          from by simp [stripElems]]
      rw [sc_elems rest (NodeUtils.cloneRecursive (vobj i fs) c).2 h.2]
      rw [show (NodeUtils.cloneRecursive (vobj i fs) c).1
          = vobj c (NodeUtils.cloneFields fs (c + 1)).1
          from by simp [NodeUtils.cloneRecursive]]
      rw [show stripV (vobj c (NodeUtils.cloneFields fs (c + 1)).1)
          = vobj 0 (stripFields (NodeUtils.cloneFields fs (c + 1)).1)
          from by simp [stripV]]
      rw [sc_fields fs (c + 1) h.1]
      simp [stripV]
  | vundef :: rest, c, h => by simp [wfElems] at h
  | vbool b :: rest, c, h => by simp [wfElems] at h
  | vnum n :: rest, c, h => by simp [wfElems] at h
  | vstr s :: rest, c, h => by simp [wfElems] at h
  | vregexp i s :: rest, c, h => by simp [wfElems] at h
  | vref a :: rest, c, h => by simp [wfElems] at h
  | varr i es2 :: rest, c, h => by simp [wfElems] at h
termination_by es c _ => sizeOf es
decreasing_by
  all_goals simp_wf <;> omega
end

/-! Freshness of the Tree Cloner's allocations: the identity counter never
decreases, and every mutable identity in the copy lies in the half-open
interval between the counter before and after the call. -/

mutual
theorem cnt_rec : ∀ (v : JVal) (c : Nat), c ≤ (NodeUtils.cloneRecursive v c).2
  | vnull, c => by simp [NodeUtils.cloneRecursive]
  | vobj i fs, c => by
      have h := cnt_fields fs (c + 1)
      simp only [NodeUtils.cloneRecursive]
      omega
  | varr i es, c => by
      have h := cnt_arr es 0 (c + 1)
      simp only [NodeUtils.cloneRecursive]
      omega
  | vregexp i s, c => by simp [NodeUtils.cloneRecursive]
  | vstr s, c => by simp [NodeUtils.cloneRecursive]
  | vnum n, c => by simp [NodeUtils.cloneRecursive]
  | vbool b, c => by simp [NodeUtils.cloneRecursive]
  | vundef, c => by simp [NodeUtils.cloneRecursive]
  | vref a, c => by simp [NodeUtils.cloneRecursive]

theorem cnt_field : ∀ (v : JVal) (c : Nat), c ≤ (NodeUtils.cloneField v c).2
  | vnull, c => by simp [NodeUtils.cloneField]
  | vregexp i s, c => by simp [NodeUtils.cloneField]
  | varr i es, c => by
      have h := cnt_elems es (c + 1)
      simp only [NodeUtils.cloneField]
      omega
  | vobj i fs, c => by
      have h := cnt_fields fs (c + 1)
      simp only [NodeUtils.cloneField]
      omega
  | vref a, c => by simp [NodeUtils.cloneField]
  | vundef, c => by simp [NodeUtils.cloneField]
  | vbool b, c => by simp [NodeUtils.cloneField]
  | vnum n, c => by simp [NodeUtils.cloneField]
  | vstr s, c => by simp [NodeUtils.cloneField]

theorem cnt_fields : ∀ (fs : List (String × JVal)) (c : Nat),
    c ≤ (NodeUtils.cloneFields fs c).2
  | [], c => by simp [NodeUtils.cloneFields]
  | (k, v) :: rest, c => by
      by_cases hp : k = "parentNode"
      · subst hp
        rw [show NodeUtils.cloneFields (("parentNode", v) :: rest) c
            = NodeUtils.cloneFields rest c from by simp [NodeUtils.cloneFields]]
        exact cnt_fields rest c
      · have h1 := cnt_field v c
        have h2 := cnt_fields rest (NodeUtils.cloneField v c).2
        rw [show NodeUtils.cloneFields ((k, v) :: rest) c
            = ((k, (NodeUtils.cloneField v c).1)
                :: (NodeUtils.cloneFields rest (NodeUtils.cloneField v c).2).1,
               (NodeUtils.cloneFields rest (NodeUtils.cloneField v c).2).2)
            from by simp [NodeUtils.cloneFields, hp]]
        omega

theorem cnt_elems : ∀ (es : List JVal) (c : Nat), c ≤ (NodeUtils.cloneElems es c).2
  | [], c => by simp [NodeUtils.cloneElems]
  | v :: rest, c => by
      have h1 := cnt_rec v c
      have h2 := cnt_elems rest (NodeUtils.cloneRecursive v c).2
      rw [show NodeUtils.cloneElems (v :: rest) c
          = ((NodeUtils.cloneRecursive v c).1
              :: (NodeUtils.cloneElems rest (NodeUtils.cloneRecursive v c).2).1,
             (NodeUtils.cloneElems rest (NodeUtils.cloneRecursive v c).2).2)
          from by simp [NodeUtils.cloneElems]]
      omega

theorem cnt_arr : ∀ (es : List JVal) (idx : Nat) (c : Nat),
    c ≤ (NodeUtils.cloneArrayAsObject es idx c).2
  | [], idx, c => by simp [NodeUtils.cloneArrayAsObject]
  | v :: rest, idx, c => by
      have h1 := cnt_field v c
      have h2 := cnt_arr rest (idx + 1) (NodeUtils.cloneField v c).2
      rw [show NodeUtils.cloneArrayAsObject (v :: rest) idx c
          = ((toString idx, (NodeUtils.cloneField v c).1)
              :: (NodeUtils.cloneArrayAsObject rest (idx + 1) (NodeUtils.cloneField v c).2).1,
             (NodeUtils.cloneArrayAsObject rest (idx + 1) (NodeUtils.cloneField v c).2).2)
          from by simp [NodeUtils.cloneArrayAsObject]]
      omega
end

theorem structIdsFields_mapStr (l : List (Nat × Char)) :
    structIdsFields (l.map (fun p => (toString p.1, vstr (String.mk [p.2])))) = [] := by
  induction l with
  | nil => simp [structIdsFields]
  | cons p rest ih => simp [structIdsFields, structIds, ih]

theorem structIdsFields_strFields (s : String) :
    structIdsFields (strFields s) = [] :=
  structIdsFields_mapStr s.toList.enum

mutual
theorem fr_rec : ∀ (v : JVal) (c j : Nat),
    j ∈ structIds (NodeUtils.cloneRecursive v c).1
      → c ≤ j ∧ j < (NodeUtils.cloneRecursive v c).2
  | vnull, c, j => by simp [NodeUtils.cloneRecursive, structIds]
  | vobj i fs, c, j => by
      intro h
      have hc := cnt_fields fs (c + 1)
      rw [show NodeUtils.cloneRecursive (vobj i fs) c
          = (vobj c (NodeUtils.cloneFields fs (c + 1)).1, (NodeUtils.cloneFields fs (c + 1)).2)
          from by simp [NodeUtils.cloneRecursive]] at h ⊢
      simp only [structIds, List.mem_cons] at h
      rcases h with h | h
      · subst h
        exact ⟨Nat.le_refl j, by omega⟩
      · have := fr_fields fs (c + 1) j h
        exact ⟨by omega, this.2⟩
  | varr i es, c, j => by
      intro h
      have hc := cnt_arr es 0 (c + 1)
      rw [show NodeUtils.cloneRecursive (varr i es) c
          = (vobj c (NodeUtils.cloneArrayAsObject es 0 (c + 1)).1,
             (NodeUtils.cloneArrayAsObject es 0 (c + 1)).2)
          from by simp [NodeUtils.cloneRecursive]] at h ⊢
      simp only [structIds, List.mem_cons] at h
      rcases h with h | h
      · subst h
        exact ⟨Nat.le_refl j, by omega⟩
      · have := fr_arr es 0 (c + 1) j h
        exact ⟨by omega, this.2⟩
  | vregexp i s, c, j => by
      intro h
      rw [show NodeUtils.cloneRecursive (vregexp i s) c = (vobj c [], c + 1) from rfl] at h ⊢
      simp only [structIds, structIdsFields, List.mem_cons, List.not_mem_nil, or_false] at h
      subst h
      exact ⟨Nat.le_refl _, Nat.lt_succ_self _⟩
  | vstr s, c, j => by
      intro h
      rw [show NodeUtils.cloneRecursive (vstr s) c = (vobj c (strFields s), c + 1)
          from rfl] at h ⊢
      simp only [structIds, structIdsFields_strFields, List.mem_cons,
        List.not_mem_nil, or_false] at h
      subst h
      exact ⟨Nat.le_refl _, Nat.lt_succ_self _⟩
  | vnum n, c, j => by
      intro h
      rw [show NodeUtils.cloneRecursive (vnum n) c = (vobj c [], c + 1) from rfl] at h ⊢
      simp only [structIds, structIdsFields, List.mem_cons, List.not_mem_nil, or_false] at h
      subst h
      exact ⟨Nat.le_refl _, Nat.lt_succ_self _⟩
  | vbool b, c, j => by
      intro h
      rw [show NodeUtils.cloneRecursive (vbool b) c = (vobj c [], c + 1) from rfl] at h ⊢
      simp only [structIds, structIdsFields, List.mem_cons, List.not_mem_nil, or_false] at h
      subst h
      exact ⟨Nat.le_refl _, Nat.lt_succ_self _⟩
  | vundef, c, j => by simp [NodeUtils.cloneRecursive, structIds]
  | vref a, c, j => by simp [NodeUtils.cloneRecursive, structIds]

theorem fr_field : ∀ (v : JVal) (c j : Nat),
    j ∈ structIds (NodeUtils.cloneField v c).1
      → c ≤ j ∧ j < (NodeUtils.cloneField v c).2
  | vnull, c, j => by simp [NodeUtils.cloneField, structIds]
  | vregexp i s, c, j => by simp [NodeUtils.cloneField, structIds]
  | varr i es, c, j => by
      intro h
      have hc := cnt_elems es (c + 1)
      rw [show NodeUtils.cloneField (varr i es) c
          = (varr c (NodeUtils.cloneElems es (c + 1)).1, (NodeUtils.cloneElems es (c + 1)).2)
          from by simp [NodeUtils.cloneField]] at h ⊢
      simp only [structIds, List.mem_cons] at h
      rcases h with h | h
      · subst h
        exact ⟨Nat.le_refl j, by omega⟩
      · have := fr_elems es (c + 1) j h
        exact ⟨by omega, this.2⟩
  | vobj i fs, c, j => by
      intro h
      have hc := cnt_fields fs (c + 1)
      rw [show NodeUtils.cloneField (vobj i fs) c
          = (vobj c (NodeUtils.cloneFields fs (c + 1)).1, (NodeUtils.cloneFields fs (c + 1)).2)
          from by simp [NodeUtils.cloneField]] at h ⊢
      simp only [structIds, List.mem_cons] at h
      rcases h with h | h
      · subst h
        exact ⟨Nat.le_refl j, by omega⟩
      · have := fr_fields fs (c + 1) j h
        exact ⟨by omega, this.2⟩
  | vref a, c, j => by simp [NodeUtils.cloneField, structIds]
  | vundef, c, j => by simp [NodeUtils.cloneField, structIds]
  | vbool b, c, j => by simp [NodeUtils.cloneField, structIds]
  | vnum n, c, j => by simp [NodeUtils.cloneField, structIds]
  | vstr s, c, j => by simp [NodeUtils.cloneField, structIds]

theorem fr_fields : ∀ (fs : List (String × JVal)) (c j : Nat),
    j ∈ structIdsFields (NodeUtils.cloneFields fs c).1
      → c ≤ j ∧ j < (NodeUtils.cloneFields fs c).2
  | [], c, j => by simp [NodeUtils.cloneFields, structIdsFields]
  | (k, v) :: rest, c, j => by
      intro h
      by_cases hp : k = "parentNode"
      · subst hp
        rw [show NodeUtils.cloneFields (("parentNode", v) :: rest) c
            = NodeUtils.cloneFields rest c from by simp [NodeUtils.cloneFields]] at h ⊢
        exact fr_fields rest c j h
      · have hc1 := cnt_field v c
        have hc2 := cnt_fields rest (NodeUtils.cloneField v c).2
        rw [show NodeUtils.cloneFields ((k, v) :: rest) c
            = ((k, (NodeUtils.cloneField v c).1)
                :: (NodeUtils.cloneFields rest (NodeUtils.cloneField v c).2).1,
               (NodeUtils.cloneFields rest (NodeUtils.cloneField v c).2).2)
            from by simp [NodeUtils.cloneFields, hp]] at h ⊢
        simp only [structIdsFields, List.mem_append] at h
        rcases h with h | h
        · have := fr_field v c j h
          exact ⟨this.1, by omega⟩
        · have := fr_fields rest (NodeUtils.cloneField v c).2 j h
          exact ⟨by omega, this.2⟩

theorem fr_elems : ∀ (es : List JVal) (c j : Nat),
    j ∈ structIdsElems (NodeUtils.cloneElems es c).1
      → c ≤ j ∧ j < (NodeUtils.cloneElems es c).2
  | [], c, j => by simp [NodeUtils.cloneElems, structIdsElems]
  | v :: rest, c, j => by
      intro h
      have hc1 := cnt_rec v c
      have hc2 := cnt_elems rest (NodeUtils.cloneRecursive v c).2
      rw [show NodeUtils.cloneElems (v :: rest) c
          = ((NodeUtils.cloneRecursive v c).1
              :: (NodeUtils.cloneElems rest (NodeUtils.cloneRecursive v c).2).1,
             (NodeUtils.cloneElems rest (NodeUtils.cloneRecursive v c).2).2)
          from by simp [NodeUtils.cloneElems]] at h ⊢
      simp only [structIdsElems, List.mem_append] at h
      rcases h with h | h
      · have := fr_rec v c j h
        exact ⟨this.1, by omega⟩
      · have := fr_elems rest (NodeUtils.cloneRecursive v c).2 j h
        exact ⟨by omega, this.2⟩

theorem fr_arr : ∀ (es : List JVal) (idx c j : Nat),
    j ∈ structIdsFields (NodeUtils.cloneArrayAsObject es idx c).1
      → c ≤ j ∧ j < (NodeUtils.cloneArrayAsObject es idx c).2
  | [], idx, c, j => by simp [NodeUtils.cloneArrayAsObject, structIdsFields]
  | v :: rest, idx, c, j => by
      intro h
      have hc1 := cnt_field v c
      have hc2 := cnt_arr rest (idx + 1) (NodeUtils.cloneField v c).2
      rw [show NodeUtils.cloneArrayAsObject (v :: rest) idx c
          = ((toString idx, (NodeUtils.cloneField v c).1)
              :: (NodeUtils.cloneArrayAsObject rest (idx + 1) (NodeUtils.cloneField v c).2).1,
             (NodeUtils.cloneArrayAsObject rest (idx + 1) (NodeUtils.cloneField v c).2).2)
          from by simp [NodeUtils.cloneArrayAsObject]] at h ⊢
      simp only [structIdsFields, List.mem_append] at h
      rcases h with h | h
      · have := fr_field v c j h
        exact ⟨this.1, by omega⟩
      · have := fr_arr rest (idx + 1) (NodeUtils.cloneField v c).2 j h
        exact ⟨by omega, this.2⟩
end

/-! Mutating an identity that a tree does not contain is a no-op on the tree:
two trees with disjoint identity sets share no mutable state, so writing into
one can never change the other. -/

mutual
theorem st_val : ∀ (v : JVal) (target : Nat) (m : JVal),
    target ∉ structIds v → stampById target m v = v
  | vobj i fs, target, m, h => by
      have hmem : target ≠ i ∧ target ∉ structIdsFields fs := by
        simp only [structIds, List.mem_cons, not_or] at h
        exact h
      rw [show stampById target m (vobj i fs)
          = if i = target then vobj i (setField (stampFields target m fs) "stamped" m)
            else vobj i (stampFields target m fs)
          from by simp [stampById]]
      rw [if_neg (fun e => hmem.1 e.symm)]
      rw [st_fields fs target m hmem.2]
  | varr i es, target, m, h => by
      have hmem : target ≠ i ∧ target ∉ structIdsElems es := by
        simp only [structIds, List.mem_cons, not_or] at h
        exact h
      rw [show stampById target m (varr i es)
          = if i = target then varr i (stampElems target m es ++ [m])
            else varr i (stampElems target m es)
          from by simp [stampById]]
      rw [if_neg (fun e => hmem.1 e.symm)]
      rw [st_elems es target m hmem.2]
  | vnull, target, m, _ => by simp [stampById]
  | vundef, target, m, _ => by simp [stampById]
  | vbool b, target, m, _ => by simp [stampById]
  | vnum n, target, m, _ => by simp [stampById]
  | vstr s, target, m, _ => by simp [stampById]
  | vregexp i s, target, m, _ => by simp [stampById]
  | vref a, target, m, _ => by simp [stampById]

theorem st_fields : ∀ (fs : List (String × JVal)) (target : Nat) (m : JVal),
    target ∉ structIdsFields fs → stampFields target m fs = fs
  | [], target, m, _ => by simp [stampFields]
  | (k, v) :: rest, target, m, h => by
      simp only [structIdsFields, List.mem_append, not_or] at h
      rw [show stampFields target m ((k, v) :: rest)
          = (k, stampById target m v) :: stampFields target m rest
          from by simp [stampFields]]
      rw [st_val v target m h.1, st_fields rest target m h.2]

theorem st_elems : ∀ (es : List JVal) (target : Nat) (m : JVal),
    target ∉ structIdsElems es → stampElems target m es = es
  | [], target, m, _ => by simp [stampElems]
  | v :: rest, target, m, h => by
      simp only [structIdsElems, List.mem_append, not_or] at h
      rw [show stampElems target m (v :: rest)
          = stampById target m v :: stampElems target m rest
          from by simp [stampElems]]
      rw [st_val v target m h.1, st_elems rest target m h.2]
end

/-! Facts about one enter step of the conversion walk: what each bookkeeping
property reads as afterwards, and that the step is invisible to the node
checkers (it only writes bookkeeping keys). -/

theorem allNodesFields_setField_reserved (q : JVal → Bool) (fs : List (String × JVal))
    (k : String) (w : JVal) (hk : isReserved k = true) :
    allNodesFields q (setField fs k w) = allNodesFields q fs := by
  induction fs with
  | nil => simp [setField, allNodesFields, hk]
  | cons p rest ih =>
      obtain ⟨k0, v⟩ := p
      by_cases h0 : k0 = k
      · subst h0
        simp [setField, allNodesFields, hk]
      · simp [setField, h0, allNodesFields, ih]

theorem allNodesFields_convertEnterFields (q : JVal → Bool) (fs : List (String × JVal))
    (i p : Nat) :
    allNodesFields q (convertEnterFields fs i p) = allNodesFields q fs := by
  simp only [convertEnterFields]
  by_cases hl : NodeGuards.isLiteralNode (vobj i (setField fs "parentNode" (vref p))) = true
  · rw [if_pos hl,
      allNodesFields_setField_reserved q _ "metadata" _ (by decide),
      allNodesFields_setField_reserved q _ "x-verbatim-property" _ (by decide),
      allNodesFields_setField_reserved q _ "parentNode" _ (by decide)]
  · rw [if_neg hl,
      allNodesFields_setField_reserved q _ "metadata" _ (by decide),
      allNodesFields_setField_reserved q _ "parentNode" _ (by decide)]

theorem lookup_convertEnterFields_pn (fs : List (String × JVal)) (i p : Nat) :
    lookupField (convertEnterFields fs i p) "parentNode" = some (vref p) := by
  simp only [convertEnterFields]
  by_cases hl : NodeGuards.isLiteralNode (vobj i (setField fs "parentNode" (vref p))) = true
  · rw [if_pos hl,
      lookupField_setField_ne _ "metadata" _ "parentNode" (by decide),
      lookupField_setField_ne _ "x-verbatim-property" _ "parentNode" (by decide),
      lookupField_setField_self]
  · rw [if_neg hl,
      lookupField_setField_ne _ "metadata" _ "parentNode" (by decide),
      lookupField_setField_self]

theorem lookup_convertEnterFields_meta (fs : List (String × JVal)) (i p : Nat) :
    lookupField (convertEnterFields fs i p) "metadata" = some NodeMetadata.cleanMetadata := by
  simp only [convertEnterFields]
  exact lookupField_setField_self _ _ _

theorem lookup_convertEnterFields_other (fs : List (String × JVal)) (i p : Nat)
    (k : String) (h1 : k ≠ "parentNode") (h2 : k ≠ "metadata")
    (h3 : k ≠ "x-verbatim-property") :
    lookupField (convertEnterFields fs i p) k = lookupField fs k := by
  simp only [convertEnterFields]
  by_cases hl : NodeGuards.isLiteralNode (vobj i (setField fs "parentNode" (vref p))) = true
  · rw [if_pos hl,
      lookupField_setField_ne _ "metadata" _ k h2,
      lookupField_setField_ne _ "x-verbatim-property" _ k h3,
      lookupField_setField_ne _ "parentNode" _ k h1]
  · rw [if_neg hl,
      lookupField_setField_ne _ "metadata" _ k h2,
      lookupField_setField_ne _ "parentNode" _ k h1]

theorem xVerbatimContentOf_setField_pn (fs : List (String × JVal)) (w : JVal) :
    xVerbatimContentOf (setField fs "parentNode" w) = xVerbatimContentOf fs := by
  simp only [xVerbatimContentOf,
    lookupField_setField_ne _ "parentNode" _ "raw" (by decide)]

theorem lookup_convertEnterFields_xverb (fs : List (String × JVal)) (i p : Nat)
    (hl : NodeGuards.isLiteralNode (vobj i (setField fs "parentNode" (vref p))) = true) :
    lookupField (convertEnterFields fs i p) "x-verbatim-property"
      = some (vobj 0 [("content", xVerbatimContentOf fs),
                      ("precedence", vnum escodegenPrecedencePrimary)]) := by
  simp only [convertEnterFields]
  rw [if_pos hl,
    lookupField_setField_ne _ "metadata" _ "x-verbatim-property" (by decide),
    lookupField_setField_self, xVerbatimContentOf_setField_pn]

theorem isLiteralNode_pn (a b : Nat) (fs : List (String × JVal)) (w : JVal) :
    NodeGuards.isLiteralNode (vobj a (setField fs "parentNode" w))
      = NodeGuards.isLiteralNode (vobj b fs) := by
  simp [NodeGuards.isLiteralNode, getProp,
    lookupField_setField_ne _ "parentNode" _ "type" (by decide)]

theorem isLiteralNode_convertEnterFields (a b i p : Nat) (fs : List (String × JVal)) :
    NodeGuards.isLiteralNode (vobj a (convertEnterFields fs i p))
      = NodeGuards.isLiteralNode (vobj b fs) := by
  simp [NodeGuards.isLiteralNode, getProp,
    lookup_convertEnterFields_other fs i p "type" (by decide) (by decide) (by decide)]

theorem isLiteralNode_convertFields (a b : Nat) (fs : List (String × JVal)) (p : Nat) :
    NodeGuards.isLiteralNode (vobj a (convertFields fs p))
      = NodeGuards.isLiteralNode (vobj b fs) := by
  simp only [NodeGuards.isLiteralNode, getProp, lookupField_convertFields]
  cases hl : lookupField fs "type" with
  | none => rfl
  | some v =>
      rw [show Option.map (fun w => if isReserved "type" then w else convertChild w p) (some v)
          = some (convertChild v p) from by simp [isReserved]]
      cases v with
      | vobj j fs2 =>
          by_cases hn : isNodeObj (vobj j fs2) = true
          · simp [convertChild, hn]
          · simp [convertChild, hn]
      | varr j es => simp [convertChild]
      | vnull => simp [convertChild]
      | vundef => simp [convertChild]
      | vbool b2 => simp [convertChild]
      | vnum n => simp [convertChild]
      | vstr s => simp [convertChild]
      | vregexp j s => simp [convertChild]
      | vref a2 => simp [convertChild]

theorem litRawOK_raw (j : Nat) (fs : List (String × JVal))
    (h : litRawOK (vobj j fs) = true)
    (hl : NodeGuards.isLiteralNode (vobj j fs) = true) :
    ∃ r, lookupField fs "raw" = some (vstr r) := by
  simp only [litRawOK, hl, Bool.not_true, Bool.false_or, getProp] at h
  cases hr : lookupField fs "raw" with
  | none => rw [hr] at h; simp at h
  | some v =>
      rw [hr] at h
      cases v with
      | vstr s => exact ⟨s, rfl⟩
      | vnull => simp at h
      | vundef => simp at h
      | vbool b => simp at h
      | vnum n => simp at h
      | vregexp a s => simp at h
      | vref a => simp at h
      | varr a es => simp at h
      | vobj a fs2 => simp at h

/-! Correctness of the conversion walk: provided every literal of the raw
parser output carries a string raw capture, the processed tree has correct
parent links everywhere, clean metadata on every node, and on every literal a
verbatim annotation holding exactly the literal's raw text at the fixed
primary precedence. -/

mutual
theorem cv_node : ∀ (j : Nat) (fs : List (String × JVal)) (p : Nat),
    litRawOK (vobj j fs) = true → allNodesFields litRawOK fs = true →
    ((parentRefIs (convertFields (convertEnterFields fs j p) j) p
        && parentsLinkedFields (convertFields (convertEnterFields fs j p) j) j) = true
     ∧ (hasCleanMetadata (vobj j (convertFields (convertEnterFields fs j p) j))
        && allNodesFields hasCleanMetadata (convertFields (convertEnterFields fs j p) j)) = true
     ∧ (literalVerbatimOK (vobj j (convertFields (convertEnterFields fs j p) j))
        && allNodesFields literalVerbatimOK (convertFields (convertEnterFields fs j p) j)) = true)
  | j, fs, p, h1, h2 => by
      have htr : allNodesFields litRawOK (convertEnterFields fs j p) = true := by
        rw [allNodesFields_convertEnterFields]
        exact h2
      obtain ⟨hL, hM, hB⟩ := cv_fields (convertEnterFields fs j p) j htr
      have hpn : lookupField (convertFields (convertEnterFields fs j p) j) "parentNode"
          = some (vref p) := by
        rw [lookupField_convertFields, lookup_convertEnterFields_pn]
        simp [isReserved]
      have hme : lookupField (convertFields (convertEnterFields fs j p) j) "metadata"
          = some NodeMetadata.cleanMetadata := by
        rw [lookupField_convertFields, lookup_convertEnterFields_meta]
        simp [isReserved]
      refine ⟨?_, ?_, ?_⟩
      · rw [Bool.and_eq_true]
        exact ⟨by simp [parentRefIs, hpn], hL⟩
      · rw [Bool.and_eq_true]
        refine ⟨?_, hM⟩
        simp [hasCleanMetadata, getProp, hme, NodeMetadata.cleanMetadata]
      · rw [Bool.and_eq_true]
        refine ⟨?_, hB⟩
        by_cases horig : NodeGuards.isLiteralNode (vobj j fs) = true
        · obtain ⟨r, hr⟩ := litRawOK_raw j fs h1 horig
          have hx : lookupField (convertFields (convertEnterFields fs j p) j)
              "x-verbatim-property"
              = some (vobj 0 [("content", vstr r),
                              ("precedence", vnum escodegenPrecedencePrimary)]) := by
            rw [lookupField_convertFields,
              lookup_convertEnterFields_xverb fs j p
                (by rw [isLiteralNode_pn j j fs]; exact horig)]
            simp [isReserved, xVerbatimContentOf, hr]
          have hrw : lookupField (convertFields (convertEnterFields fs j p) j) "raw"
              = some (vstr r) := by
            rw [lookupField_convertFields,
              lookup_convertEnterFields_other fs j p "raw" (by decide) (by decide) (by decide),
              hr]
            simp [isReserved, convertChild]
          simp [literalVerbatimOK, getProp, hx, hrw]
        · have hnl : NodeGuards.isLiteralNode
              (vobj j (convertFields (convertEnterFields fs j p) j)) = false := by
            rw [isLiteralNode_convertFields j j, isLiteralNode_convertEnterFields j j]
            simpa using horig
          simp [literalVerbatimOK, hnl]
termination_by j fs p => 2 * (4 + msizeFields fs)
decreasing_by
  have h := msizeFields_convertEnterFields_le fs j p
  omega

theorem cv_fields : ∀ (fs : List (String × JVal)) (i : Nat),
    allNodesFields litRawOK fs = true →
    (parentsLinkedFields (convertFields fs i) i = true
     ∧ allNodesFields hasCleanMetadata (convertFields fs i) = true
     ∧ allNodesFields literalVerbatimOK (convertFields fs i) = true)
  | [], i, _ => by simp [convertFields, parentsLinkedFields, allNodesFields]
  | (k, v) :: rest, i, h => by
      simp only [allNodesFields, Bool.and_eq_true] at h
      by_cases hk : isReserved k = true
      · obtain ⟨a, b, c⟩ := cv_fields rest i h.2
        simp [convertFields, hk, parentsLinkedFields, allNodesFields, a, b, c]
      · obtain ⟨a, b, c⟩ := cv_fields rest i h.2
        obtain ⟨d, e, f⟩ := cv_child v i (by
          have := h.1
          rw [if_neg hk] at this
          exact this)
        simp [convertFields, hk, parentsLinkedFields, allNodesFields, a, b, c, d, e, f]
termination_by fs i => 2 * msizeFields fs
decreasing_by
  all_goals first
    | (have h := msizeFields_tail_lt k v rest
       omega)
    | (have h1 := msize_head_lt k v rest (by simpa using hk)
       omega)

theorem cv_child : ∀ (v : JVal) (i : Nat),
    allNodesChild litRawOK v = true →
    (childLinkedB (convertChild v i) i = true
     ∧ allNodesChild hasCleanMetadata (convertChild v i) = true
     ∧ allNodesChild literalVerbatimOK (convertChild v i) = true)
  | vobj j fs, i, h => by
      by_cases hn : isNodeObj (vobj j fs) = true
      · rw [show allNodesChild litRawOK (vobj j fs)
            = (litRawOK (vobj j fs) && allNodesFields litRawOK fs)
            from by simp [allNodesChild, hn]] at h
        rw [Bool.and_eq_true] at h
        rw [show convertChild (vobj j fs) i
            = vobj j (convertFields (convertEnterFields fs j i) j)
            from by simp [convertChild, hn]]
        obtain ⟨hA, hB, hC⟩ := cv_node j fs i h.1 h.2
        rw [Bool.and_eq_true] at hA hB hC
        refine ⟨?_, ?_, ?_⟩
        · rw [show childLinkedB (vobj j (convertFields (convertEnterFields fs j i) j)) i
              = if isNodeObj (vobj j (convertFields (convertEnterFields fs j i) j)) then
                  parentRefIs (convertFields (convertEnterFields fs j i) j) i
                    && parentsLinkedFields (convertFields (convertEnterFields fs j i) j) j
                else true
              from by simp [childLinkedB]]
          by_cases hn2 : isNodeObj (vobj j (convertFields (convertEnterFields fs j i) j)) = true
          · rw [if_pos hn2, Bool.and_eq_true]
            exact ⟨hA.1, hA.2⟩
          · rw [if_neg hn2]
        · rw [show allNodesChild hasCleanMetadata
                (vobj j (convertFields (convertEnterFields fs j i) j))
              = if isNodeObj (vobj j (convertFields (convertEnterFields fs j i) j)) then
                  hasCleanMetadata (vobj j (convertFields (convertEnterFields fs j i) j))
                    && allNodesFields hasCleanMetadata (convertFields (convertEnterFields fs j i) j)
                else true
              from by simp [allNodesChild]]
          by_cases hn2 : isNodeObj (vobj j (convertFields (convertEnterFields fs j i) j)) = true
          · rw [if_pos hn2, Bool.and_eq_true]
            exact ⟨hB.1, hB.2⟩
          · rw [if_neg hn2]
        · rw [show allNodesChild literalVerbatimOK
                (vobj j (convertFields (convertEnterFields fs j i) j))
              = if isNodeObj (vobj j (convertFields (convertEnterFields fs j i) j)) then
                  literalVerbatimOK (vobj j (convertFields (convertEnterFields fs j i) j))
                    && allNodesFields literalVerbatimOK (convertFields (convertEnterFields fs j i) j)
                else true
              from by simp [allNodesChild]]
          by_cases hn2 : isNodeObj (vobj j (convertFields (convertEnterFields fs j i) j)) = true
          · rw [if_pos hn2, Bool.and_eq_true]
            exact ⟨hC.1, hC.2⟩
          · rw [if_neg hn2]
      · rw [show convertChild (vobj j fs) i = vobj j fs from by simp [convertChild, hn]]
        exact ⟨by simp [childLinkedB, hn], by simp [allNodesChild, hn],
          by simp [allNodesChild, hn]⟩
  | varr j es, i, h => by
      rw [show allNodesChild litRawOK (varr j es) = allNodesElems litRawOK es
          from by simp [allNodesChild]] at h
      rw [show convertChild (varr j es) i = varr j (convertElems es i)
          from by simp [convertChild]]
      obtain ⟨a, b, c⟩ := cv_elems es i h
      exact ⟨by simpa [childLinkedB] using a, by simpa [allNodesChild] using b,
        by simpa [allNodesChild] using c⟩
  | vnull, i, _ => by
      rw [show convertChild vnull i = vnull from by simp [convertChild]]
      exact ⟨rfl, rfl, rfl⟩
  | vundef, i, _ => by
      rw [show convertChild vundef i = vundef from by simp [convertChild]]
      exact ⟨rfl, rfl, rfl⟩
  | vbool b, i, _ => by
      rw [show convertChild (vbool b) i = vbool b from by simp [convertChild]]
      exact ⟨rfl, rfl, rfl⟩
  | vnum n, i, _ => by
      rw [show convertChild (vnum n) i = vnum n from by simp [convertChild]]
      exact ⟨rfl, rfl, rfl⟩
  | vstr s, i, _ => by
      rw [show convertChild (vstr s) i = vstr s from by simp [convertChild]]
      exact ⟨rfl, rfl, rfl⟩
  | vregexp j s, i, _ => by
      rw [show convertChild (vregexp j s) i = vregexp j s from by simp [convertChild]]
      exact ⟨rfl, rfl, rfl⟩
  | vref a, i, _ => by
      rw [show convertChild (vref a) i = vref a from by simp [convertChild]]
      exact ⟨rfl, rfl, rfl⟩
termination_by v i => 2 * msize v + 1
decreasing_by
  · simp only [msize]
    omega
  · simp only [msize]
    omega

theorem cv_elems : ∀ (es : List JVal) (i : Nat),
    allNodesElems litRawOK es = true →
    (elemsLinkedB (convertElems es i) i = true
     ∧ allNodesElems hasCleanMetadata (convertElems es i) = true
     ∧ allNodesElems literalVerbatimOK (convertElems es i) = true)
  | [], i, _ => by simp [convertElems, elemsLinkedB, allNodesElems]
  | v :: rest, i, h => by
      simp only [allNodesElems, Bool.and_eq_true] at h
      obtain ⟨a, b, c⟩ := cv_elem v i h.1
      obtain ⟨d, e, f⟩ := cv_elems rest i h.2
      simp [convertElems, elemsLinkedB, allNodesElems, a, b, c, d, e, f]
termination_by es i => 2 * msizeElems es
decreasing_by
  · simp only [msizeElems]
    omega
  · simp only [msizeElems]
    omega

theorem cv_elem : ∀ (v : JVal) (i : Nat),
    allNodesElem litRawOK v = true →
    (elemLinkedB (convertElem v i) i = true
     ∧ allNodesElem hasCleanMetadata (convertElem v i) = true
     ∧ allNodesElem literalVerbatimOK (convertElem v i) = true)
  | vobj j fs, i, h => by
      by_cases hn : isNodeObj (vobj j fs) = true
      · rw [show allNodesElem litRawOK (vobj j fs)
            = (litRawOK (vobj j fs) && allNodesFields litRawOK fs)
            from by simp [allNodesElem, hn]] at h
        rw [Bool.and_eq_true] at h
        rw [show convertElem (vobj j fs) i
            = vobj j (convertFields (convertEnterFields fs j i) j)
            from by simp [convertElem, hn]]
        obtain ⟨hA, hB, hC⟩ := cv_node j fs i h.1 h.2
        rw [Bool.and_eq_true] at hA hB hC
        refine ⟨?_, ?_, ?_⟩
        · rw [show elemLinkedB (vobj j (convertFields (convertEnterFields fs j i) j)) i
              = if isNodeObj (vobj j (convertFields (convertEnterFields fs j i) j)) then
                  parentRefIs (convertFields (convertEnterFields fs j i) j) i
                    && parentsLinkedFields (convertFields (convertEnterFields fs j i) j) j
                else true
              from by simp [elemLinkedB]]
          by_cases hn2 : isNodeObj (vobj j (convertFields (convertEnterFields fs j i) j)) = true
          · rw [if_pos hn2, Bool.and_eq_true]
            exact ⟨hA.1, hA.2⟩
          · rw [if_neg hn2]
        · rw [show allNodesElem hasCleanMetadata
                (vobj j (convertFields (convertEnterFields fs j i) j))
              = if isNodeObj (vobj j (convertFields (convertEnterFields fs j i) j)) then
                  hasCleanMetadata (vobj j (convertFields (convertEnterFields fs j i) j))
                    && allNodesFields hasCleanMetadata (convertFields (convertEnterFields fs j i) j)
                else true
              from by simp [allNodesElem]]
          by_cases hn2 : isNodeObj (vobj j (convertFields (convertEnterFields fs j i) j)) = true
          · rw [if_pos hn2, Bool.and_eq_true]
            exact ⟨hB.1, hB.2⟩
          · rw [if_neg hn2]
        · rw [show allNodesElem literalVerbatimOK
                (vobj j (convertFields (convertEnterFields fs j i) j))
              = if isNodeObj (vobj j (convertFields (convertEnterFields fs j i) j)) then
                  literalVerbatimOK (vobj j (convertFields (convertEnterFields fs j i) j))
                    && allNodesFields literalVerbatimOK (convertFields (convertEnterFields fs j i) j)
                else true
              from by simp [allNodesElem]]
          by_cases hn2 : isNodeObj (vobj j (convertFields (convertEnterFields fs j i) j)) = true
          · rw [if_pos hn2, Bool.and_eq_true]
            exact ⟨hC.1, hC.2⟩
          · rw [if_neg hn2]
      · rw [show convertElem (vobj j fs) i = vobj j fs from by simp [convertElem, hn]]
        exact ⟨by simp [elemLinkedB, hn], by simp [allNodesElem, hn],
          by simp [allNodesElem, hn]⟩
  | varr j es, i, _ => by
      rw [show convertElem (varr j es) i = varr j es from by simp [convertElem]]
      exact ⟨rfl, rfl, rfl⟩
  | vnull, i, _ => by
      rw [show convertElem vnull i = vnull from by simp [convertElem]]
      exact ⟨rfl, rfl, rfl⟩
  | vundef, i, _ => by
      rw [show convertElem vundef i = vundef from by simp [convertElem]]
      exact ⟨rfl, rfl, rfl⟩
  | vbool b, i, _ => by
      rw [show convertElem (vbool b) i = vbool b from by simp [convertElem]]
      exact ⟨rfl, rfl, rfl⟩
  | vnum n, i, _ => by
      rw [show convertElem (vnum n) i = vnum n from by simp [convertElem]]
      exact ⟨rfl, rfl, rfl⟩
  | vstr s, i, _ => by
      rw [show convertElem (vstr s) i = vstr s from by simp [convertElem]]
      exact ⟨rfl, rfl, rfl⟩
  | vregexp j s, i, _ => by
      rw [show convertElem (vregexp j s) i = vregexp j s from by simp [convertElem]]
      exact ⟨rfl, rfl, rfl⟩
  | vref a, i, _ => by
      rw [show convertElem (vref a) i = vref a from by simp [convertElem]]
      exact ⟨rfl, rfl, rfl⟩
termination_by v i => 2 * msize v + 1
decreasing_by
  simp only [msize]
  omega
end

/-! Remaining observers and concrete example trees used by the claims. -/

/-- Factory contract checker: metadata is the record { ignoredNode: false }
and no parent link is set. -/
def factoryContractOK (n : JVal) : Bool :=
  hasCleanMetadata n && (getProp n "parentNode").isNone

/-- Triple negation of the identifier x, built with the factory. -/
def tripleNotX : JVal :=
  NodeFactory.unaryExpressionNode "!"
    (NodeFactory.unaryExpressionNode "!"
      (NodeFactory.unaryExpressionNode "!" (NodeFactory.identifierNode "x") none) none) none

/-- Raw parser output for the source text 0x1F; (a program holding one
expression statement around a literal with verbatim capture 0x1F). -/
def c8prog : JVal :=
  vobj 0 [("type", vstr "Program"),
          ("body", varr 1 [vobj 2 [("type", vstr "ExpressionStatement"),
                                   ("expression", vobj 3 [("type", vstr "Literal"),
                                                          ("value", vnum 31),
                                                          ("raw", vstr "0x1F")])]]),
          ("sourceType", vstr "script")]

/-- Small identifier tree with identity 0. -/
def c1tree : JVal :=
  vobj 0 [("type", vstr "Identifier"), ("name", vstr "x")]

/-- Tree exercising every field-copy rule: a null hole, a nested literal
node carrying a plain nested object and a shared regular expression, inside
an array field. -/
def c4tree : JVal :=
  vobj 0 [("type", vstr "ArrayExpression"),
          ("elements", varr 1 [vnull,
            vobj 2 [("type", vstr "Literal"),
                    ("value", vbool true),
                    ("regex", vobj 3 [("pattern", vstr "a"), ("flags", vstr "")]),
                    ("shared", vregexp 9 "a")]]),
          ("metadata", NodeMetadata.cleanMetadata)]

/-! Helper results for the Unary-Chain Unwrapper and the Tree Cloner's
freshness, shared by the claims below. -/

theorem getU_not_unary (n : JVal) :
    NodeGuards.isUnaryExpressionNode (NodeUtils.getUnaryExpressionArgumentNode n) = false := by
  unfold NodeUtils.getUnaryExpressionArgumentNode
  by_cases hc : NodeGuards.isUnaryExpressionNode (argumentOf n) = true
  · rw [dif_pos hc]
    exact getU_not_unary (argumentOf n)
  · rw [dif_neg hc]
    simpa using hc
termination_by msize n
decreasing_by exact msize_argumentOf_lt n hc

theorem getU_step (n : JVal)
    (h : NodeGuards.isUnaryExpressionNode (argumentOf n) = true) :
    NodeUtils.getUnaryExpressionArgumentNode n
      = NodeUtils.getUnaryExpressionArgumentNode (argumentOf n) := by
  conv_lhs => unfold NodeUtils.getUnaryExpressionArgumentNode
  rw [dif_pos h]

theorem getU_last (n : JVal)
    (h : ¬NodeGuards.isUnaryExpressionNode (argumentOf n) = true) :
    NodeUtils.getUnaryExpressionArgumentNode n = argumentOf n := by
  conv_lhs => unfold NodeUtils.getUnaryExpressionArgumentNode
  rw [dif_neg h]

theorem clone_obj_shape (i : Nat) (fs : List (String × JVal)) (c : Nat) :
    NodeUtils.clone (vobj i fs) c
      = vobj c (parentizeFields
          (setField (NodeUtils.cloneFields fs (c + 1)).1 "parentNode" (vref c)) c) := by
  rw [show NodeUtils.clone (vobj i fs) c
      = NodeUtils.parentizeAst (NodeUtils.cloneRecursive (vobj i fs) c).1 from rfl]
  rw [show (NodeUtils.cloneRecursive (vobj i fs) c).1
      = vobj c (NodeUtils.cloneFields fs (c + 1)).1 from by simp [NodeUtils.cloneRecursive]]
  rfl

theorem clone_ids_ge (i : Nat) (fs : List (String × JVal)) (c : Nat) :
    ∀ j ∈ structIds (NodeUtils.clone (vobj i fs) c), c ≤ j := by
  intro j hj
  rw [clone_obj_shape i fs c] at hj
  simp only [structIds, List.mem_cons] at hj
  rcases hj with hj | hj
  · omega
  · have h1 := ip_fields (setField (NodeUtils.cloneFields fs (c + 1)).1 "parentNode" (vref c))
      c j hj
    have h2 := structIdsFields_setField_ref_sub (NodeUtils.cloneFields fs (c + 1)).1
      "parentNode" c j h1
    have h3 := fr_fields fs (c + 1) j h2
    omega

/-! The claims. -/

/-- C1: for every syntax tree, clone returns a tree that is deep-equal to the
source under a comparison ignoring parent links (the strip normal form),
every parent link in the clone is freshly computed from the clone's own
structure with the clone's root referencing itself, and every object and
array of the clone is a distinct identity from every one in the source. -/
theorem spec_C1 (i : Nat) (fs : List (String × JVal)) (c : Nat)
    (hwf : wfVal (vobj i fs) = true)
    (hids : ∀ j ∈ structIds (vobj i fs), j < c) :
    stripV (NodeUtils.clone (vobj i fs) c) = stripV (vobj i fs)
    ∧ rootId (NodeUtils.clone (vobj i fs) c) = some c
    ∧ parentsLinkedB (NodeUtils.clone (vobj i fs) c) c = true
    ∧ (∀ j ∈ structIds (NodeUtils.clone (vobj i fs) c), j ∉ structIds (vobj i fs)) := by
  refine ⟨?_, ?_, ?_, ?_⟩
  · rw [clone_obj_shape i fs c]
    rw [show stripV (vobj c (parentizeFields
          (setField (NodeUtils.cloneFields fs (c + 1)).1 "parentNode" (vref c)) c))
        = vobj 0 (stripFields (parentizeFields
            (setField (NodeUtils.cloneFields fs (c + 1)).1 "parentNode" (vref c)) c))
        from by simp [stripV]]
    rw [sp_fields (setField (NodeUtils.cloneFields fs (c + 1)).1 "parentNode" (vref c)) c,
      stripFields_setField_parent (NodeUtils.cloneFields fs (c + 1)).1 (vref c),
      sc_fields fs (c + 1) (by simpa [wfVal] using hwf)]
    simp [stripV]
  · rw [clone_obj_shape i fs c]
    simp [rootId]
  · rw [clone_obj_shape i fs c]
    rw [show parentsLinkedB (vobj c (parentizeFields
          (setField (NodeUtils.cloneFields fs (c + 1)).1 "parentNode" (vref c)) c)) c
        = (parentRefIs (parentizeFields
              (setField (NodeUtils.cloneFields fs (c + 1)).1 "parentNode" (vref c)) c) c
           && parentsLinkedFields (parentizeFields
              (setField (NodeUtils.cloneFields fs (c + 1)).1 "parentNode" (vref c)) c) c)
        from by simp [parentsLinkedB]]
    exact pl_node c (NodeUtils.cloneFields fs (c + 1)).1 c
  · intro j hj hmem
    have h1 := clone_ids_ge i fs c j hj
    have h2 := hids j hmem
    omega

/-- C1 witness: the claim instantiated at a concrete identifier tree with the
fresh-identity counter 1, all hypotheses discharged by evaluation. -/
theorem spec_C1_witness :
    wfVal c1tree = true
    ∧ (∀ j ∈ structIds c1tree, j < 1)
    ∧ (stripV (NodeUtils.clone c1tree 1) = stripV c1tree
       ∧ rootId (NodeUtils.clone c1tree 1) = some 1
       ∧ parentsLinkedB (NodeUtils.clone c1tree 1) 1 = true
       ∧ (∀ j ∈ structIds (NodeUtils.clone c1tree 1), j ∉ structIds c1tree)) :=
  ⟨by decide, by decide, spec_C1 0 [("type", vstr "Identifier"), ("name", vstr "x")] 1
    (by decide) (by decide)⟩

/-- C2: for every tree, after the Parent Linker runs, the root's parentNode
references the root itself and every other reachable node's parentNode
references exactly the node that structurally contains it. -/
theorem spec_C2 (i : Nat) (fs : List (String × JVal)) :
    parentsLinkedB (NodeUtils.parentizeAst (vobj i fs)) i = true := by
  rw [show NodeUtils.parentizeAst (vobj i fs)
      = vobj i (parentizeFields (setField fs "parentNode" (vref i)) i) from rfl]
  rw [show parentsLinkedB
        (vobj i (parentizeFields (setField fs "parentNode" (vref i)) i)) i
      = (parentRefIs (parentizeFields (setField fs "parentNode" (vref i)) i) i
         && parentsLinkedFields (parentizeFields (setField fs "parentNode" (vref i)) i) i)
      from by simp [parentsLinkedB]]
  exact pl_node i fs i

/-- C4: the cloner copies every own field except the skipped parentNode
back-reference; null and regular-expression values are copied by reference,
arrays are copied element-wise through the same recursive rule into a fresh
array, nested objects are cloned recursively into fresh objects, and all
other scalars are copied by value.  Under these rules a clone taken at a
fresh identity counter shares no mutable object with the source, so writing
into any object of the one tree is a no-op on the other. -/
theorem spec_C4 (i : Nat) (fs : List (String × JVal)) (c : Nat)
    (hwf : wfVal (vobj i fs) = true)
    (hids : ∀ j ∈ structIds (vobj i fs), j < c) :
    (∀ c', NodeUtils.cloneField vnull c' = (vnull, c'))
    ∧ (∀ rid src c', NodeUtils.cloneField (vregexp rid src) c' = (vregexp rid src, c'))
    ∧ (∀ b c', NodeUtils.cloneField (vbool b) c' = (vbool b, c'))
    ∧ (∀ n c', NodeUtils.cloneField (vnum n) c' = (vnum n, c'))
    ∧ (∀ s c', NodeUtils.cloneField (vstr s) c' = (vstr s, c'))
    ∧ (∀ aid es c', NodeUtils.cloneField (varr aid es) c'
        = (varr c' (NodeUtils.cloneElems es (c' + 1)).1, (NodeUtils.cloneElems es (c' + 1)).2))
    ∧ (∀ v rest c', NodeUtils.cloneElems (v :: rest) c'
        = ((NodeUtils.cloneRecursive v c').1
            :: (NodeUtils.cloneElems rest (NodeUtils.cloneRecursive v c').2).1,
           (NodeUtils.cloneElems rest (NodeUtils.cloneRecursive v c').2).2))
    ∧ (∀ oid fs' c', NodeUtils.cloneField (vobj oid fs') c'
        = NodeUtils.cloneRecursive (vobj oid fs') c')
    ∧ (∀ w rest c', NodeUtils.cloneFields (("parentNode", w) :: rest) c'
        = NodeUtils.cloneFields rest c')
    ∧ stripV (NodeUtils.clone (vobj i fs) c) = stripV (vobj i fs)
    ∧ (∀ m, ∀ j ∈ structIds (NodeUtils.clone (vobj i fs) c),
        stampById j m (vobj i fs) = vobj i fs)
    ∧ (∀ m, ∀ j ∈ structIds (vobj i fs),
        stampById j m (NodeUtils.clone (vobj i fs) c)
          = NodeUtils.clone (vobj i fs) c) := by
  refine ⟨fun c' => rfl, fun rid src c' => rfl, fun b c' => rfl, fun n c' => rfl,
    fun s c' => rfl, fun aid es c' => rfl, fun v rest c' => rfl,
    fun oid fs' c' => rfl,
    fun w rest c' => by simp [NodeUtils.cloneFields],
    ?_, ?_, ?_⟩
  · rw [clone_obj_shape i fs c]
    rw [show stripV (vobj c (parentizeFields
          (setField (NodeUtils.cloneFields fs (c + 1)).1 "parentNode" (vref c)) c))
        = vobj 0 (stripFields (parentizeFields
            (setField (NodeUtils.cloneFields fs (c + 1)).1 "parentNode" (vref c)) c))
        from by simp [stripV]]
    rw [sp_fields (setField (NodeUtils.cloneFields fs (c + 1)).1 "parentNode" (vref c)) c,
      stripFields_setField_parent (NodeUtils.cloneFields fs (c + 1)).1 (vref c),
      sc_fields fs (c + 1) (by simpa [wfVal] using hwf)]
    simp [stripV]
  · intro m j hj
    refine st_val (vobj i fs) j m ?_
    intro hmem
    have h1 := clone_ids_ge i fs c j hj
    have h2 := hids j hmem
    omega
  · intro m j hj
    refine st_val (NodeUtils.clone (vobj i fs) c) j m ?_
    intro hmem
    have h1 := clone_ids_ge i fs c j hmem
    have h2 := hids j hj
    omega

/-- C4 witness: the claim instantiated at a tree exercising null holes,
array fields, nested objects, a shared regular expression and scalar fields,
with the fresh-identity counter 4. -/
theorem spec_C4_witness :
    wfVal c4tree = true
    ∧ (∀ j ∈ structIds c4tree, j < 4)
    ∧ ((∀ c', NodeUtils.cloneField vnull c' = (vnull, c'))
       ∧ (∀ rid src c', NodeUtils.cloneField (vregexp rid src) c' = (vregexp rid src, c'))
       ∧ (∀ b c', NodeUtils.cloneField (vbool b) c' = (vbool b, c'))
       ∧ (∀ n c', NodeUtils.cloneField (vnum n) c' = (vnum n, c'))
       ∧ (∀ s c', NodeUtils.cloneField (vstr s) c' = (vstr s, c'))
       ∧ (∀ aid es c', NodeUtils.cloneField (varr aid es) c'
           = (varr c' (NodeUtils.cloneElems es (c' + 1)).1,
              (NodeUtils.cloneElems es (c' + 1)).2))
       ∧ (∀ v rest c', NodeUtils.cloneElems (v :: rest) c'
           = ((NodeUtils.cloneRecursive v c').1
               :: (NodeUtils.cloneElems rest (NodeUtils.cloneRecursive v c').2).1,
              (NodeUtils.cloneElems rest (NodeUtils.cloneRecursive v c').2).2))
       ∧ (∀ oid fs' c', NodeUtils.cloneField (vobj oid fs') c'
           = NodeUtils.cloneRecursive (vobj oid fs') c')
       ∧ (∀ w rest c', NodeUtils.cloneFields (("parentNode", w) :: rest) c'
           = NodeUtils.cloneFields rest c')
       ∧ stripV (NodeUtils.clone c4tree 4) = stripV c4tree
       ∧ (∀ m, ∀ j ∈ structIds (NodeUtils.clone c4tree 4),
           stampById j m c4tree = c4tree)
       ∧ (∀ m, ∀ j ∈ structIds c4tree,
           stampById j m (NodeUtils.clone c4tree 4) = NodeUtils.clone c4tree 4)) :=
  ⟨by decide, by decide,
    spec_C4 0 [("type", vstr "ArrayExpression"),
               ("elements", varr 1 [vnull,
                 vobj 2 [("type", vstr "Literal"),
                         ("value", vbool true),
                         ("regex", vobj 3 [("pattern", vstr "a"), ("flags", vstr "")]),
                         ("shared", vregexp 9 "a")]]),
               ("metadata", NodeMetadata.cleanMetadata)] 4 (by decide) (by decide)⟩

/-- C5: every Node Factory constructor, for every choice of its arguments,
returns a node whose metadata is the record with ignoredNode false and with
no parent link set; additionally every node built by the Literal constructor
carries a non-null verbatim annotation. -/
theorem spec_C5 :
    (∀ body, factoryContractOK (NodeFactory.programNode body) = true)
    ∧ (∀ elements, factoryContractOK (NodeFactory.arrayExpressionNode elements) = true)
    ∧ (∀ op l r, factoryContractOK (NodeFactory.assignmentExpressionNode op l r) = true)
    ∧ (∀ op l r, factoryContractOK (NodeFactory.binaryExpressionNode op l r) = true)
    ∧ (∀ body, factoryContractOK (NodeFactory.blockStatementNode body) = true)
    ∧ (∀ label, factoryContractOK (NodeFactory.breakStatement label) = true)
    ∧ (∀ callee args, factoryContractOK (NodeFactory.callExpressionNode callee args) = true)
    ∧ (∀ label, factoryContractOK (NodeFactory.continueStatement label) = true)
    ∧ (∀ e, factoryContractOK (NodeFactory.expressionStatementNode e) = true)
    ∧ (∀ name params body,
        factoryContractOK (NodeFactory.functionDeclarationNode name params body) = true)
    ∧ (∀ params body, factoryContractOK (NodeFactory.functionExpressionNode params body) = true)
    ∧ (∀ t cq alt, factoryContractOK (NodeFactory.ifStatementNode t cq alt) = true)
    ∧ (∀ name, factoryContractOK (NodeFactory.identifierNode name) = true)
    ∧ (∀ value raw, factoryContractOK (NodeFactory.literalNode value raw) = true)
    ∧ (∀ op l r, factoryContractOK (NodeFactory.logicalExpressionNode op l r) = true)
    ∧ (∀ o pr comp, factoryContractOK (NodeFactory.memberExpressionNode o pr comp) = true)
    ∧ (∀ k v kind comp,
        factoryContractOK (NodeFactory.methodDefinitionNode k v kind comp) = true)
    ∧ (∀ props, factoryContractOK (NodeFactory.objectExpressionNode props) = true)
    ∧ (∀ k v comp, factoryContractOK (NodeFactory.propertyNode k v comp) = true)
    ∧ (∀ arg, factoryContractOK (NodeFactory.returnStatementNode arg) = true)
    ∧ (∀ d cs, factoryContractOK (NodeFactory.switchStatementNode d cs) = true)
    ∧ (∀ t cq, factoryContractOK (NodeFactory.switchCaseNode t cq) = true)
    ∧ (∀ op arg pf, factoryContractOK (NodeFactory.unaryExpressionNode op arg pf) = true)
    ∧ (∀ op arg, factoryContractOK (NodeFactory.updateExpressionNode op arg) = true)
    ∧ (∀ ds kind, factoryContractOK (NodeFactory.variableDeclarationNode ds kind) = true)
    ∧ (∀ id init, factoryContractOK (NodeFactory.variableDeclaratorNode id init) = true)
    ∧ (∀ t body, factoryContractOK (NodeFactory.whileStatementNode t body) = true)
    ∧ (∀ value raw,
        (getProp (NodeFactory.literalNode value raw) "x-verbatim-property").isSome = true) :=
  ⟨fun _ => rfl, fun _ => rfl, fun _ _ _ => rfl, fun _ _ _ => rfl, fun _ => rfl,
    fun _ => rfl, fun _ _ => rfl, fun _ => rfl, fun _ => rfl, fun _ _ _ => rfl,
    fun _ _ => rfl, fun _ _ alt => by cases alt <;> rfl, fun _ => rfl, fun _ _ => rfl,
    fun _ _ _ => rfl, fun _ _ _ => rfl, fun _ _ _ _ => rfl, fun _ => rfl,
    fun _ _ _ => rfl, fun _ => rfl, fun _ _ => rfl, fun _ _ => rfl, fun _ _ _ => rfl,
    fun _ _ => rfl, fun _ _ => rfl, fun _ _ => rfl, fun _ _ => rfl, fun _ _ => rfl⟩

/-- C6: the Literal constructor defaults the raw form to a single-quoted
rendering of the value when no explicit raw form is supplied, and always
attaches a verbatim annotation whose content equals the raw form at the
fixed primary precedence. -/
theorem spec_C6 :
    (∀ value : NodeFactory.LitValue,
      getProp (NodeFactory.literalNode value none) "raw"
          = some (vstr ("'" ++ value.render ++ "'"))
        ∧ getProp (NodeFactory.literalNode value none) "x-verbatim-property"
          = some (vobj 0 [("content", vstr ("'" ++ value.render ++ "'")),
                          ("precedence", vnum escodegenPrecedencePrimary)]))
    ∧ (∀ (value : NodeFactory.LitValue) (r : String),
      getProp (NodeFactory.literalNode value (some r)) "raw" = some (vstr r)
        ∧ getProp (NodeFactory.literalNode value (some r)) "x-verbatim-property"
          = some (vobj 0 [("content", vstr r),
                          ("precedence", vnum escodegenPrecedencePrimary)])) :=
  ⟨fun _ => ⟨rfl, rfl⟩, fun _ _ => ⟨rfl, rfl⟩⟩

/-- C7: factory defaults — the if-statement constructor omits the alternate
field unless one is supplied, the variable-declaration kind defaults to the
var variant, and computed member access and property access default to
false. -/
theorem spec_C7 :
    (∀ t cq, getProp (NodeFactory.ifStatementNode t cq none) "alternate" = none)
    ∧ (∀ t cq alt,
        getProp (NodeFactory.ifStatementNode t cq (some alt)) "alternate" = some alt)
    ∧ (∀ ds, getProp (NodeFactory.variableDeclarationNode ds none) "kind"
        = some (vstr "var"))
    ∧ (∀ o pr, getProp (NodeFactory.memberExpressionNode o pr none) "computed"
        = some (vbool false))
    ∧ (∀ k v, getProp (NodeFactory.propertyNode k v none) "computed"
        = some (vbool false)) :=
  ⟨fun _ _ => rfl, fun _ _ _ => rfl, fun _ => rfl, fun _ _ => rfl, fun _ _ => rfl⟩

/-- C9: the unary-chain unwrapper never returns a unary-expression node, and
on the triple negation of x it returns the identifier node for x. -/
theorem spec_C9 :
    (∀ n, NodeGuards.isUnaryExpressionNode (NodeUtils.getUnaryExpressionArgumentNode n)
        = false)
    ∧ NodeUtils.getUnaryExpressionArgumentNode tripleNotX = NodeFactory.identifierNode "x" := by
  refine ⟨getU_not_unary, ?_⟩
  rw [getU_step tripleNotX (by decide)]
  rw [show argumentOf tripleNotX
      = NodeFactory.unaryExpressionNode "!"
          (NodeFactory.unaryExpressionNode "!" (NodeFactory.identifierNode "x") none) none
      from rfl]
  rw [getU_step (NodeFactory.unaryExpressionNode "!"
        (NodeFactory.unaryExpressionNode "!" (NodeFactory.identifierNode "x") none) none)
      (by decide)]
  rw [show argumentOf (NodeFactory.unaryExpressionNode "!"
        (NodeFactory.unaryExpressionNode "!" (NodeFactory.identifierNode "x") none) none)
      = NodeFactory.unaryExpressionNode "!" (NodeFactory.identifierNode "x") none from rfl]
  rw [getU_last (NodeFactory.unaryExpressionNode "!" (NodeFactory.identifierNode "x") none)
      (by decide)]
  rfl

/-- C8: text-to-nodes conversion walks the parsed tree once and, for every
visited node, assigns its parent link (the root referencing itself), attaches
to every literal a verbatim annotation whose content is exactly the parser's
raw capture at the fixed primary precedence, sets metadata to the record with
ignoredNode false, and returns the ordered body of the processed program. -/
theorem spec_C8 (parse : String → Except String JVal) (code : String)
    (i : Nat) (fs : List (String × JVal))
    (hp : parse code = Except.ok (vobj i fs))
    (hraw : allNodesB litRawOK (vobj i fs) = true) :
    parentsLinkedB (convertVisit (vobj i fs) none) i = true
    ∧ allNodesB hasCleanMetadata (convertVisit (vobj i fs) none) = true
    ∧ allNodesB literalVerbatimOK (convertVisit (vobj i fs) none) = true
    ∧ NodeUtils.convertCodeToStructure parse code
        = Except.ok (bodyListOf (convertVisit (vobj i fs) none)) := by
  have h1 : litRawOK (vobj i fs) = true ∧ allNodesFields litRawOK fs = true := by
    simpa [allNodesB, Bool.and_eq_true] using hraw
  obtain ⟨hA, hB, hC⟩ := cv_node i fs i h1.1 h1.2
  have hv : convertVisit (vobj i fs) none
      = vobj i (convertFields (convertEnterFields fs i i) i) := rfl
  refine ⟨?_, ?_, ?_, ?_⟩
  · rw [hv]
    rw [show parentsLinkedB (vobj i (convertFields (convertEnterFields fs i i) i)) i
        = (parentRefIs (convertFields (convertEnterFields fs i i) i) i
           && parentsLinkedFields (convertFields (convertEnterFields fs i i) i) i)
        from by simp [parentsLinkedB]]
    exact hA
  · rw [hv]
    rw [show allNodesB hasCleanMetadata
          (vobj i (convertFields (convertEnterFields fs i i) i))
        = (hasCleanMetadata (vobj i (convertFields (convertEnterFields fs i i) i))
           && allNodesFields hasCleanMetadata (convertFields (convertEnterFields fs i i) i))
        from by simp [allNodesB]]
    exact hB
  · rw [hv]
    rw [show allNodesB literalVerbatimOK
          (vobj i (convertFields (convertEnterFields fs i i) i))
        = (literalVerbatimOK (vobj i (convertFields (convertEnterFields fs i i) i))
           && allNodesFields literalVerbatimOK (convertFields (convertEnterFields fs i i) i))
        from by simp [allNodesB]]
    exact hC
  · simp [NodeUtils.convertCodeToStructure, hp]

/-- C8 witness: the claim instantiated at a stub parser returning the parsed
program for the source text 0x1F; with all hypotheses evaluated. -/
theorem spec_C8_witness :
    ((fun _ : String => (Except.ok c8prog : Except String JVal)) "0x1F;" = Except.ok c8prog)
    ∧ allNodesB litRawOK c8prog = true
    ∧ (parentsLinkedB (convertVisit c8prog none) 0 = true
       ∧ allNodesB hasCleanMetadata (convertVisit c8prog none) = true
       ∧ allNodesB literalVerbatimOK (convertVisit c8prog none) = true
       ∧ NodeUtils.convertCodeToStructure (fun _ => Except.ok c8prog) "0x1F;"
           = Except.ok (bodyListOf (convertVisit c8prog none))) :=
  ⟨rfl, by decide,
    spec_C8 (fun _ => Except.ok c8prog) "0x1F;" 0
      [("type", vstr "Program"),
       ("body", varr 1 [vobj 2 [("type", vstr "ExpressionStatement"),
                                ("expression", vobj 3 [("type", vstr "Literal"),
                                                       ("value", vnum 31),
                                                       ("raw", vstr "0x1F")])]]),
       ("sourceType", vstr "script")] rfl (by decide)⟩

/-- C10: on invalid source text the conversion fails with exactly the
SyntaxError-kind failure raised by the external parser, propagated unmodified,
and returns no nodes at all. -/
theorem spec_C10 (parse : String → Except String JVal) (code e : String)
    (h : parse code = Except.error e) :
    NodeUtils.convertCodeToStructure parse code = Except.error e := by
  simp [NodeUtils.convertCodeToStructure, h]

/-- C10 witness: the claim instantiated at a stub parser that rejects its
input with a SyntaxError-kind message. -/
theorem spec_C10_witness :
    ((fun _ : String => (Except.error "SyntaxError: Unexpected token" : Except String JVal))
        "1 +" = Except.error "SyntaxError: Unexpected token")
    ∧ NodeUtils.convertCodeToStructure
        (fun _ => Except.error "SyntaxError: Unexpected token") "1 +"
        = Except.error "SyntaxError: Unexpected token" :=
  ⟨rfl, spec_C10 (fun _ => Except.error "SyntaxError: Unexpected token") "1 +"
    "SyntaxError: Unexpected token" rfl⟩
